import Mathlib

/-!
Verification of the NDI time-synchronization graph (ndi/time/syncgraph.py and
ndi/time/syncrules/filefind.py), shallowly embedded in Lean 4.

Numeric time and cost values are embedded as rationals (Python floats
idealized as exact arithmetic).  The value np.inf used by the cost matrices is
embedded by the dedicated type Cost below.  The repository files
ndi/time/timemapping.py, ndi/time/clocktype.py and ndi/time/syncrule.py are
not part of the provided sources; the small pieces of them that the graph code
relies on (the affine TimeMapping value type) are modelled from the spec, as
marked on their declarations.
-/

/-- Cost values as stored in the adjacency matrix `G`: either a finite float
(embedded as a rational) or np.inf ("no known edge"). -/
inductive Cost where
  | fin (q : ℚ)
  | inf
deriving DecidableEq, Repr

namespace Cost

/-- Python `<` on costs (np.inf compares greater than any finite float). -/
def ltb : Cost → Cost → Bool
  | fin a, fin b => a < b
  | fin _, inf => true
  | inf, _ => false

/-- `a` is less than or equal to `b` in the cost order. -/
def le (a b : Cost) : Prop := ltb b a = false

theorem le_refl (a : Cost) : le a a := by
  cases a <;> simp [le, ltb]

theorem le_of_ltb (a b : Cost) (h : ltb a b = true) : le a b := by
  cases a <;> cases b <;> simp_all [le, ltb] <;> linarith

theorem le_of_not_ltb (a b : Cost) (h : ¬ ltb a b = true) : le b a := by
  cases a <;> cases b <;> simp_all [le, ltb] <;> linarith

theorem le_trans (a b c : Cost) (hab : le a b) (hbc : le b c) : le a c := by
  cases a <;> cases b <;> cases c <;> simp_all [le, ltb] <;> linarith

theorem ltb_of_ltb_of_le (a b c : Cost) (hab : ltb a b = true) (hbc : le b c) :
    ltb a c = true := by
  cases a <;> cases b <;> cases c <;> simp_all [le, ltb] <;> linarith

theorem ltb_of_le_of_ltb (a b c : Cost) (hab : le a b) (hbc : ltb b c = true) :
    ltb a c = true := by
  cases a <;> cases b <;> cases c <;> simp_all [le, ltb] <;> linarith

theorem ltb_irrefl (a : Cost) : ltb a a = false := by
  cases a <;> simp [ltb]

theorem fin_of_ltb_inf (a : Cost) (h : ltb a inf = true) : ∃ q, a = fin q := by
  cases a <;> simp_all [ltb]

end Cost

/-- Modelled from the spec: `ndi/time/timemapping.py` is not among the provided
sources.  Per spec §3/§4.1 (and the comments inside `FileFind._load_sync_file`),
`TimeMapping('linear', [scale, shift])` is the affine transform
`t_out = scale * t_in + shift`. -/
structure TimeMapping where
  scale : ℚ
  shift : ℚ
deriving DecidableEq, Repr

/-- Modelled from the spec: `TimeMapping.map(t) = scale * t + shift`. -/
def TimeMapping.map (m : TimeMapping) (t : ℚ) : ℚ := m.scale * t + m.shift

/-- One epoch node of the graph.  In the Python source nodes are dictionaries;
the fields used by `SyncGraph` and the sync rules are embedded here.
`epoch_clock` is the clock-type name (`node.get('epoch_clock')`, `none` when
the key is absent); `objectclass` is the node's class string; `underlying` is
the file list found at `node['underlying_epochs']['underlying']` (empty when
the keys are absent). -/
structure EpochNode where
  epoch_id : String
  epoch_clock : Option String
  objectname : String
  objectclass : String
  underlying : List String
deriving DecidableEq, Repr

instance : Inhabited EpochNode := ⟨⟨"", none, "", "", []⟩⟩

/-- The graph-info record built by `SyncGraph.addepoch` (fields `nodes`, `G`,
`mapping`, `syncRuleG` of the Python `ginfo` dict; the derived path-finding
structure `diG` is recomputed from `G` at query time and the `syncRuleIDs`
bookkeeping list is not needed by any claim). -/
structure GraphInfo where
  nodes : List EpochNode
  G : List (List Cost)
  mapping : List (List (Option TimeMapping))
  syncRuleG : List (List ℕ)
deriving DecidableEq, Repr

/-- The empty graph-info structure set up at the top of `buildgraphinfo`. -/
def emptyGinfo : GraphInfo := ⟨[], [], [], []⟩

/-! ### Matrix primitives

NumPy matrices are embedded as lists of rows.  `entry m i j d` reads position
`(i, j)` with default `d` for out-of-range access; `matSet` writes one
position, mirroring `M[i, j] = v`. -/

/-- Read entry `(i, j)` of a matrix, with default `d` out of range. -/
def entry (m : List (List α)) (i j : ℕ) (d : α) : α := ((m.getD i []).getD j d)

/-- Write entry `(i, j)` of a matrix (no-op out of range, like `List.set`). -/
def matSet (m : List (List α)) (i j : ℕ) (v : α) : List (List α) :=
  m.set i ((m.getD i []).set j v)

/-- `np.full((n, n), v)` as a list of rows. -/
def matFull (n : ℕ) (v : α) : List (List α) :=
  List.replicate n (List.replicate n v)

/-- `np.zeros_like(m)` (as used for `syncRuleG` when the graph was empty). -/
def zerosLike (m : List (List Cost)) : List (List ℕ) :=
  m.map fun row => row.map fun _ => 0

/-- The block matrix built when `addepoch` grows an `old_n × old_n` matrix to
`total_n × total_n`: top-left block from `oldM`, bottom-right block from
`newM`, and the two cross blocks filled with `fill`
(`new_G[:old_n, :old_n] = old`, `new_G[old_n:, old_n:] = new`, rest `fill`). -/
def expandBlocks (oldM newM : List (List α)) (fill : α) (old_n total_n : ℕ) :
    List (List α) :=
  (List.range total_n).map fun i =>
    (List.range total_n).map fun j =>
      if i < old_n then
        (if j < old_n then entry oldM i j fill else fill)
      else
        (if j < old_n then fill else entry newM (i - old_n) (j - old_n) fill)

theorem getD_set_ne (l : List α) (i i' : ℕ) (v d : α) (h : i' ≠ i) :
    (l.set i v).getD i' d = l.getD i' d := by
  induction l generalizing i i' with
  | nil => rfl
  | cons a t ih =>
    cases i with
    | zero =>
      cases i' with
      | zero => exact absurd rfl h
      | succ k => simp [List.set]
    | succ n =>
      cases i' with
      | zero => simp [List.set]
      | succ k => simpa [List.set] using ih n k (by omega)

theorem getD_set_self (l : List α) (i : ℕ) (v d : α) (h : i < l.length) :
    (l.set i v).getD i d = v := by
  induction l generalizing i with
  | nil => simp at h
  | cons a t ih =>
    cases i with
    | zero => simp [List.set]
    | succ n => simpa [List.set] using ih n (by simpa using h)

theorem set_oob (l : List α) (i : ℕ) (v : α) (h : l.length ≤ i) : l.set i v = l := by
  induction l generalizing i with
  | nil => rfl
  | cons a t ih =>
    cases i with
    | zero => simp at h
    | succ n => simp [List.set, ih n (by simpa using h)]

theorem entry_matSet_ne (m : List (List α)) (i j i' j' : ℕ) (v d : α)
    (h : i' ≠ i ∨ j' ≠ j) :
    entry (matSet m i j v) i' j' d = entry m i' j' d := by
  unfold entry matSet
  rcases Decidable.em (i' = i) with hi | hi
  · subst hi
    rcases h with h | h
    · exact absurd rfl h
    · rcases Decidable.em (i' < m.length) with hlen | hlen
      · rw [getD_set_self _ _ _ _ hlen, getD_set_ne _ _ _ _ _ h]
      · rw [set_oob _ _ _ (by omega)]
  · rw [getD_set_ne _ _ _ _ _ hi]

theorem entry_matSet_self (m : List (List α)) (i j : ℕ) (v d : α)
    (hi : i < m.length) (hj : j < (m.getD i []).length) :
    entry (matSet m i j v) i j d = v := by
  unfold entry matSet
  rw [getD_set_self _ _ _ _ hi, getD_set_self _ _ _ _ hj]

theorem length_matSet (m : List (List α)) (i j : ℕ) (v : α) :
    (matSet m i j v).length = m.length := by
  simp [matSet]

theorem getD_matSet_length (m : List (List α)) (i j i' : ℕ) (v : α) :
    ((matSet m i j v).getD i' []).length = (m.getD i' []).length := by
  unfold matSet
  rcases Decidable.em (i' = i) with hi | hi
  · subst hi
    rcases Decidable.em (i' < m.length) with hlen | hlen
    · rw [getD_set_self _ _ _ _ hlen, List.length_set]
    · rw [set_oob _ _ _ (by omega)]
  · rw [getD_set_ne _ _ _ _ _ hi]

/-! ### Automatic clock-type edges (SyncGraph._automatic_clock_mapping) -/

/-- The identity mapping `TimeMapping('linear', [1.0, 0.0])`. -/
def identityMapping : TimeMapping := ⟨1, 0⟩

/-- `SyncGraph._automatic_clock_mapping(node_i, node_j)`: the automatic edge
proposed from clock types alone.  Mirrors the source: same clock type in
`{utc, approx_utc, exp_global_time}`, or `dev_global_time` on the same
`objectname`, gives `(100.0, identity)`; so does `utc` paired with
`approx_utc` in either order; everything else gives `(np.inf, None)`.
A missing clock on either node gives `(np.inf, None)`. -/
def automatic_clock_mapping (node_i node_j : EpochNode) :
    Cost × Option TimeMapping :=
  match node_i.epoch_clock, node_j.epoch_clock with
  | none, _ => (Cost.inf, none)
  | _, none => (Cost.inf, none)
  | some type_i, some type_j =>
    if type_i = type_j ∧
        (type_i = "utc" ∨ type_i = "approx_utc" ∨ type_i = "exp_global_time") then
      (Cost.fin 100, some identityMapping)
    else if type_i = type_j ∧ type_i = "dev_global_time" ∧
        node_i.objectname = node_j.objectname then
      (Cost.fin 100, some identityMapping)
    else if (type_i = "utc" ∧ type_j = "approx_utc") ∨
        (type_i = "approx_utc" ∧ type_j = "utc") then
      (Cost.fin 100, some identityMapping)
    else (Cost.inf, none)

/-- The condition under which the spec (§4.3 step 2 / claim C2) says an
automatic edge exists, written from the spec words for comparison with the
source function above. -/
def autoEdgeSpec (node_i node_j : EpochNode) : Prop :=
  match node_i.epoch_clock, node_j.epoch_clock with
  | some type_i, some type_j =>
    (type_i = type_j ∧
      (type_i = "utc" ∨ type_i = "approx_utc" ∨ type_i = "exp_global_time")) ∨
    (type_i = type_j ∧ type_i = "dev_global_time" ∧
      node_i.objectname = node_j.objectname) ∨
    ((type_i = "utc" ∧ type_j = "approx_utc") ∨
      (type_i = "approx_utc" ∧ type_j = "utc"))
  | _, _ => False

/-- C2: the automatic clock-type edge between two nodes is cost `100.0` with
the identity mapping (scale 1, shift 0) exactly when both nodes have the same
clock type in `{utc, approx_utc, exp_global_time}`, or the same clock type
`dev_global_time` with the same `objectname`, or one node is `utc` and the
other `approx_utc` in either order; in every other case (including
`dev_global_time` on different devices) no automatic edge is proposed
(cost `+inf`, no mapping). -/
theorem automatic_clock_mapping_spec (node_i node_j : EpochNode) :
    (autoEdgeSpec node_i node_j →
      automatic_clock_mapping node_i node_j = (Cost.fin 100, some identityMapping)) ∧
    (¬ autoEdgeSpec node_i node_j →
      automatic_clock_mapping node_i node_j = (Cost.inf, none)) := by
  obtain ⟨ida, ca, na, cla, ua⟩ := node_i
  obtain ⟨idb, cb, nb, clb, ub⟩ := node_j
  rcases ca with _ | ti <;> rcases cb with _ | tj
  · exact ⟨fun h => absurd h not_false, fun _ => rfl⟩
  · exact ⟨fun h => absurd h not_false, fun _ => rfl⟩
  · exact ⟨fun h => absurd h not_false, fun _ => rfl⟩
  · simp only [automatic_clock_mapping, autoEdgeSpec]
    by_cases h1 : ti = tj ∧ (ti = "utc" ∨ ti = "approx_utc" ∨ ti = "exp_global_time")
    · rw [if_pos h1]
      exact ⟨fun _ => rfl, fun h => absurd (Or.inl h1) h⟩
    · rw [if_neg h1]
      by_cases h2 : ti = tj ∧ ti = "dev_global_time" ∧ na = nb
      · rw [if_pos h2]
        exact ⟨fun _ => rfl, fun h => absurd (Or.inr (Or.inl h2)) h⟩
      · rw [if_neg h2]
        by_cases h3 : (ti = "utc" ∧ tj = "approx_utc") ∨
            (ti = "approx_utc" ∧ tj = "utc")
        · rw [if_pos h3]
          exact ⟨fun _ => rfl, fun h => absurd (Or.inr (Or.inr h3)) h⟩
        · rw [if_neg h3]
          exact ⟨fun h => by tauto, fun _ => rfl⟩

/-! ### Sync rules and addepoch (SyncGraph.addepoch) -/

/-- What a call `rule.apply(node_a, node_b)` can do in Python: return a pair
`(cost, mapping)` of optionals, or raise an exception (carrying a message). -/
inductive RuleOutcome where
  | ret (cost : Option ℚ) (mapping : Option TimeMapping)
  | err (msg : String)

/-- A registered sync rule, abstracted to its `apply` behaviour on a pair of
epoch nodes (the graph code only ever calls `rule.apply`). -/
def SyncRule := EpochNode → EpochNode → RuleOutcome

/-- The inner rule loop of `addepoch` step 3 for one ordered node pair:
`for rule_idx, rule in enumerate(self.rules): cost, mapping = rule.apply(...);
if cost is not None and cost < best_cost: best_* = ...; best_rule_idx =
rule_idx + 1`.  `rule_idx` is the 0-based index of the head rule; a raised
exception propagates immediately. -/
def ruleLoop (a b : EpochNode) :
    List SyncRule → ℕ → Cost × Option TimeMapping × ℕ →
    Except String (Cost × Option TimeMapping × ℕ)
  | [], _, best => .ok best
  | r :: rs, rule_idx, best =>
    match r a b with
    | .err e => .error e
    | .ret cost mapping =>
      match cost with
      | some c =>
        if Cost.ltb (Cost.fin c) best.1 then
          ruleLoop a b rs (rule_idx + 1) (Cost.fin c, mapping, rule_idx + 1)
        else ruleLoop a b rs (rule_idx + 1) best
      | none => ruleLoop a b rs (rule_idx + 1) best

/-- Step 3 of `addepoch` for one ordered pair `(i_idx, j_idx)`: start from the
value already in the matrices, run every rule, and write the best result back
(recording the winning rule's 1-based index in `syncRuleG` when a rule won). -/
def step3pair (rules : List SyncRule) (g : GraphInfo) (i_idx j_idx : ℕ) :
    Except String GraphInfo :=
  let best_cost := entry g.G i_idx j_idx Cost.inf
  let best_mapping := entry g.mapping i_idx j_idx none
  match ruleLoop (g.nodes.getD i_idx default) (g.nodes.getD j_idx default)
      rules 0 (best_cost, best_mapping, 0) with
  | .error e => .error e
  | .ok (bc, bm, bri) =>
    if Cost.ltb bc Cost.inf then
      let g' : GraphInfo :=
        { g with G := matSet g.G i_idx j_idx bc,
                 mapping := matSet g.mapping i_idx j_idx bm }
      .ok (if bri > 0 then
            { g' with syncRuleG := matSet g'.syncRuleG i_idx j_idx bri }
          else g')
    else .ok g

/-- The cross pairs visited by steps 2 and 3:
`for i in range(old_n): for j in range(old_n, total_n)`. -/
def crossPairs (old_n total_n : ℕ) : List (ℕ × ℕ) :=
  (List.range old_n).bind fun i =>
    (List.range (total_n - old_n)).map fun k => (i, old_n + k)

/-- The step-3 loop over all cross pairs; each pair is tried in both
directions `[(i, j), (j, i)]`.  A raised rule exception aborts the loop; the
pair `(state, some msg)` models the in-place-mutated `ginfo` dict at the time
the exception leaves `addepoch`, together with the exception itself. -/
def step3go (rules : List SyncRule) :
    List (ℕ × ℕ) → GraphInfo → GraphInfo × Option String
  | [], g => (g, none)
  | (i, j) :: ps, g =>
    match step3pair rules g i j with
    | .error e => (g, some e)
    | .ok g1 =>
      match step3pair rules g1 j i with
      | .error e => (g1, some e)
      | .ok g2 => step3go rules ps g2

/-- Step 2 of `addepoch` for one cross pair `(i, j)`: propose automatic
clock-type edges in both directions, overwriting the matrix entries whenever
the proposed cost is finite. -/
def step2pair (g : GraphInfo) (i j : ℕ) : GraphInfo :=
  if i ≠ j then
    let node_i := g.nodes.getD i default
    let node_j := g.nodes.getD j default
    let cm_ij := automatic_clock_mapping node_i node_j
    let g1 :=
      if Cost.ltb cm_ij.1 Cost.inf then
        { g with G := matSet g.G i j cm_ij.1,
                 mapping := matSet g.mapping i j cm_ij.2 }
      else g
    let cm_ji := automatic_clock_mapping node_j node_i
    if Cost.ltb cm_ji.1 Cost.inf then
      { g1 with G := matSet g1.G j i cm_ji.1,
                mapping := matSet g1.mapping j i cm_ji.2 }
    else g1
  else g

/-- Step 2 of `addepoch`: the automatic-edge loop over all cross pairs. -/
def step2 (g : GraphInfo) (old_n total_n : ℕ) : GraphInfo :=
  (crossPairs old_n total_n).foldl (fun g p => step2pair g p.1 p.2) g

/-- A node-producing device, as `addepoch` sees it: `epochnodes()` and,
when present, `epochgraph()` returning the device-internal
`(cost, mapping)` matrices (`none` models a DAQ object without an
`epochgraph` attribute, for which `addepoch` builds the default
all-`inf`/all-`None` internal graph). -/
structure DaqSystem where
  epochnodes : List EpochNode
  epochgraph : Option (List (List Cost) × List (List (Option TimeMapping)))

/-- `SyncGraph.addepoch(ndi_daqsystem_obj, ginfo)`.  Step 1 appends the
device's nodes and block-expands the matrices; step 2 adds automatic
clock-type edges on all cross pairs; step 3 lets the registered rules compete
on all cross pairs.  The result is the updated graph info, paired with
`some msg` when a rule raised (the graph info in that case is the state the
in-place-mutated `ginfo` dict holds when the exception propagates). -/
def addepoch (rules : List SyncRule) (daq : DaqSystem) (g : GraphInfo) :
    GraphInfo × Option String :=
  let new_nodes := daq.epochnodes
  if new_nodes.length = 0 then (g, none)
  else
    let new_cm :=
      match daq.epochgraph with
      | some cm => cm
      | none => (matFull new_nodes.length Cost.inf,
                 matFull new_nodes.length (none : Option TimeMapping))
    let new_cost := new_cm.1
    let new_mapping := new_cm.2
    let old_n := g.nodes.length
    let total_n := old_n + new_nodes.length
    let g1 : GraphInfo :=
      { nodes := g.nodes ++ new_nodes,
        G := if old_n = 0 then new_cost
             else expandBlocks g.G new_cost Cost.inf old_n total_n,
        mapping := if old_n = 0 then new_mapping
                   else expandBlocks g.mapping new_mapping none old_n total_n,
        syncRuleG := if old_n = 0 then zerosLike new_cost
                     else expandBlocks g.syncRuleG (matFull new_nodes.length 0)
                            0 old_n total_n }
    let g2 := step2 g1 old_n total_n
    if rules.length > 0 then step3go rules (crossPairs old_n total_n) g2
    else (g2, none)

/-! ### Path finding and time conversion (SyncGraph.time_convert)

The Python code hands the cost matrix to NetworkX
(`_build_networkx_graph` creates edge `i -> j` iff `G[i, j]` is finite and
`> 0`, weighted by the cost) and asks for a Dijkstra shortest path.  The
external path finder is modelled by an executable Bellman-Ford-style
relaxation over the same edge set, which likewise returns a minimum-total-
weight path (all edge weights are strictly positive). -/

/-- Keep the better of two distance/path candidates (strictly smaller total
weight wins; ties keep the incumbent). -/
def betterCand :
    Option (ℚ × List ℕ) → Option (ℚ × List ℕ) → Option (ℚ × List ℕ)
  | none, y => y
  | some x, none => some x
  | some x, some y => if y.1 < x.1 then some y else some x

/-- One full relaxation round over every edge `u -> v` with finite positive
weight. -/
def relaxStep (G : List (List Cost)) (n : ℕ)
    (tbl : List (Option (ℚ × List ℕ))) : List (Option (ℚ × List ℕ)) :=
  (List.range n).map fun v =>
    (List.range n).foldl
      (fun acc u =>
        match tbl.getD u none, entry G u v Cost.inf with
        | some du_pu, Cost.fin w =>
          if 0 < w then betterCand acc (some (du_pu.1 + w, du_pu.2 ++ [v]))
          else acc
        | _, _ => acc)
      (tbl.getD v none)

/-- Iterate the relaxation `k` times. -/
def relaxIter (G : List (List Cost)) (n : ℕ) :
    ℕ → List (Option (ℚ × List ℕ)) → List (Option (ℚ × List ℕ))
  | 0, tbl => tbl
  | k + 1, tbl => relaxIter G n k (relaxStep G n tbl)

/-- A minimum-total-weight path from `src` to `dst` in the directed graph
that `_build_networkx_graph` derives from the cost matrix (`none` when no
path exists, mirroring `nx.has_path` returning `False`).  Since every edge
weight is strictly positive, minimum paths are simple and `n` relaxation
rounds reach the fixpoint. -/
def shortestPath (G : List (List Cost)) (n src dst : ℕ) : Option (List ℕ) :=
  let init := (List.range n).map fun v =>
    if v = src then some ((0 : ℚ), [src]) else none
  ((relaxIter G n n init).getD dst none).map Prod.snd

/-- The final loop of `time_convert`: walk the path edge by edge, applying
each edge's `TimeMapping.map` to the running value; a missing mapping on an
edge fails with the defensive error message. -/
def applyPath (mapping : List (List (Option TimeMapping))) (t : ℚ) :
    List ℕ → Option ℚ × String
  | [] => (some t, "")
  | [_] => (some t, "")
  | a :: b :: rest =>
    match entry mapping a b none with
    | none => (none, "No time mapping found for edge " ++ toString a ++
        " -> " ++ toString b)
    | some m => applyPath mapping (m.map t) (b :: rest)

/-- `SyncGraph.time_convert(source_node_idx, dest_node_idx, t_in)` against a
given graph info: validate the indices, short-circuit when source equals
destination, otherwise find a cheapest path and compose the mappings along
it.  Returns `(t_out, "")` on success and `(None, msg)` on failure. -/
def time_convert (g : GraphInfo) (source_node_idx dest_node_idx : ℤ)
    (t_in : ℚ) : Option ℚ × String :=
  if source_node_idx < 0 ∨ (g.nodes.length : ℤ) ≤ source_node_idx then
    (none, "Invalid source node index: " ++ toString source_node_idx)
  else if dest_node_idx < 0 ∨ (g.nodes.length : ℤ) ≤ dest_node_idx then
    (none, "Invalid destination node index: " ++ toString dest_node_idx)
  else if source_node_idx = dest_node_idx then
    (some t_in, "")
  else
    match shortestPath g.G g.nodes.length source_node_idx.toNat
        dest_node_idx.toNat with
    | none => (none, "No path exists from node " ++ toString source_node_idx
        ++ " to node " ++ toString dest_node_idx)
    | some path => applyPath g.mapping t_in path

/-! ### FileFind (ndi/time/syncrules/filefind.py) -/

/-- Does the character list `s` start with `pat`? -/
def charsStartWith : List Char → List Char → Bool
  | _, [] => true
  | [], _ :: _ => false
  | c :: cs, d :: ds => decide (c = d) && charsStartWith cs ds

/-- Does the character list contain `pat` as a contiguous run?  Used for the
Python substring test `'ndi.daq.system' in class_a`. -/
def charsContain (pat : List Char) : List Char → Bool
  | [] => charsStartWith [] pat
  | c :: cs => charsStartWith (c :: cs) pat || charsContain pat cs

/-- Python `pat in s` on strings (substring containment). -/
def strContains (s pat : String) : Bool := charsContain pat.data s.data

/-- `os.path.basename`: the part of the path after the last `/`. -/
def basename (s : String) : String :=
  String.mk ((s.data.reverse.takeWhile (fun c => c ≠ '/')).reverse)

/-- The validated parameter set of a `FileFind` rule. -/
structure FileFindParams where
  number_fullpath_matches : ℕ
  syncfilename : String
  daqsystem1 : String
  daqsystem2 : String

/-- The filesystem as `FileFind` observes it: for a path, either the list of
numeric tokens `np.loadtxt` parses out of the file, or `none` when the file
cannot be read/parsed (in which case `np.loadtxt` raises). -/
def FileSystem := String → Option (List ℚ)

/-- `FileFind._load_sync_file(filepath, reverse)`: parse `(shift, scale)` from
the first two tokens, build the forward mapping `(scale, shift)` or, for
`reverse=True`, the algebraic inverse `(1/scale, -shift/scale)`.  Any failure
raises (is an `.error`). -/
def load_sync_file (fs : FileSystem) (filepath : String) (reverse : Bool) :
    Except String TimeMapping :=
  match fs filepath with
  | none => .error ("Error loading sync file " ++ filepath)
  | some data =>
    if data.length < 2 then
      .error ("Sync file " ++ filepath ++
        " must contain at least 2 numbers (shift, scale)")
    else
      let shift := data.getD 0 0
      let scale := data.getD 1 0
      if reverse then
        if scale = 0 then .error "Cannot reverse mapping with scale=0"
        else .ok ⟨1 / scale, -shift / scale⟩
      else .ok ⟨scale, shift⟩

/-- The search loop of `FileFind.apply` over one node's underlying file list:
the first file whose basename equals `syncfilename` is loaded; if none
matches, the `FileNotFoundError` is raised. -/
def findSyncFileLoop (fs : FileSystem) (syncfilename : String)
    (reverse : Bool) (epoch_id : String) :
    List String → Except String (Option ℚ × Option TimeMapping)
  | [] => .error ("Sync file " ++ syncfilename ++ " not found in epoch " ++
      epoch_id)
  | filepath :: rest =>
    if basename filepath = syncfilename then
      match load_sync_file fs filepath reverse with
      | .error e => .error e
      | .ok m => .ok (some 1, some m)
    else findSyncFileLoop fs syncfilename reverse epoch_id rest

/-- The number of distinct common files,
`len(set(underlying_a) & set(underlying_b))`. -/
def commonFileCount (underlying_a underlying_b : List String) : ℕ :=
  ((underlying_a.filter (fun f => underlying_b.contains f)).dedup).length

/-- `FileFind.apply(epochnode_a, epochnode_b)`.  Direction-sensitive: the
`forward` case (a is `daqsystem1`, b is `daqsystem2`) searches a's files for
the sync file and uses the forward mapping; the `backward` case searches b's
files and uses the reverse mapping.  Ineligible pairs (wrong DAQ names, wrong
object class, empty file lists, too few common files) return the non-match
`(None, None)`; a missing sync file after eligibility raises. -/
def FileFind.apply (p : FileFindParams) (fs : FileSystem)
    (epochnode_a epochnode_b : EpochNode) :
    Except String (Option ℚ × Option TimeMapping) :=
  let forward := epochnode_a.objectname = p.daqsystem1 ∧
    epochnode_b.objectname = p.daqsystem2
  let backward := epochnode_b.objectname = p.daqsystem1 ∧
    epochnode_a.objectname = p.daqsystem2
  if ¬ forward ∧ ¬ backward then .ok (none, none)
  else if ¬ (strContains epochnode_a.objectclass "ndi.daq.system" = true) ∨
      ¬ (strContains epochnode_b.objectclass "ndi.daq.system" = true) then
    .ok (none, none)
  else
    let underlying_a := epochnode_a.underlying
    let underlying_b := epochnode_b.underlying
    if underlying_a = [] ∨ underlying_b = [] then .ok (none, none)
    else if commonFileCount underlying_a underlying_b <
        p.number_fullpath_matches then .ok (none, none)
    else if forward then
      findSyncFileLoop fs p.syncfilename false epochnode_a.epoch_id
        underlying_a
    else
      findSyncFileLoop fs p.syncfilename true epochnode_b.epoch_id
        underlying_b

/-- Package `FileFind.apply` as a registered rule for the graph: a Python
return value becomes `.ret`, a raised exception becomes `.err`. -/
def FileFind.asRule (p : FileFindParams) (fs : FileSystem) : SyncRule :=
  fun a b =>
    match FileFind.apply p fs a b with
    | .ok (c, m) => .ret c m
    | .error e => .err e

/-! ### SyncGraph rule registry (add_rule / remove_rule) and buildgraphinfo -/

/-- The mutable state of a `SyncGraph` object that `remove_rule` touches: the
registered rule list and the cached graph info (`None` when invalidated). -/
structure SyncGraphState where
  rules : List SyncRule
  cached : Option GraphInfo

/-- `SyncGraph.remove_rule(index)`: remove by 0-based position when
`0 <= index < len(self.rules)` and invalidate the cache; otherwise do
nothing. -/
def remove_rule (s : SyncGraphState) (index : ℤ) : SyncGraphState :=
  if 0 ≤ index ∧ index < (s.rules.length : ℤ) then
    { rules := s.rules.eraseIdx index.toNat, cached := none }
  else s

/-- The `addepoch` loop inside `buildgraphinfo`:
`for daqsystem in daqsystems: ginfo = self.addepoch(daqsystem, ginfo)`.
The first raised exception stops the loop, leaving the partially built
`ginfo`. -/
def addepochLoop (rules : List SyncRule) :
    List DaqSystem → GraphInfo → GraphInfo × Option String
  | [], g => (g, none)
  | d :: ds, g =>
    match addepoch rules d g with
    | (g', none) => addepochLoop rules ds g'
    | (g', some e) => (g', some e)

/-- `SyncGraph.buildgraphinfo()` for a session whose `daqsystem_load`
succeeds with the given device list: start from the empty structure and add
every device.  The whole loop sits in `try: ... except Exception: pass`, so
any exception raised while adding epochs -- including a sync-rule failure --
is silently discarded and the partially built graph info is returned. -/
def buildgraphinfo (rules : List SyncRule) (daqsystems : List DaqSystem) :
    GraphInfo :=
  (addepochLoop rules daqsystems emptyGinfo).1

/-! ### Claim theorems: time conversion -/

/-- C8: for every in-range node index `i` and every input time `t`,
`time_convert(i, i, t)` returns `t` unchanged with an empty error message.
The statement holds for an arbitrary graph info `g` -- in particular for
graphs with no edges, no mappings and no path structure at all -- which is
how the model expresses that the identity short-circuit consults neither the
mapping matrix nor the path-finding structure. -/
theorem time_convert_identity (g : GraphInfo) (i : ℤ) (t : ℚ)
    (h0 : 0 ≤ i) (hlt : i < (g.nodes.length : ℤ)) :
    time_convert g i i t = (some t, "") := by
  unfold time_convert
  rw [if_neg (by omega), if_neg (by omega), if_pos rfl]

/-- A one-node graph (with no mapping anywhere) for the identity witness. -/
def singleNodeG : GraphInfo :=
  ⟨[⟨"e1", some "utc", "dev1", "ndi.daq.system.mfdaq", []⟩],
   [[Cost.fin 0]], [[none]], [[0]]⟩

theorem time_convert_identity_witness :
    (0 : ℤ) ≤ 0 ∧ (0 : ℤ) < (singleNodeG.nodes.length : ℤ) ∧
    time_convert singleNodeG 0 0 3 = (some 3, "") :=
  ⟨by decide, by decide,
    time_convert_identity singleNodeG 0 3 (by decide) (by decide)⟩

/-- The 3-node chain graph of claim C4: the only edges are `0 -> 1` (cost 1,
mapping scale 2 shift 0) and `1 -> 2` (cost 1, mapping scale 1 shift 10),
plus the zero-cost diagonal, which `_build_networkx_graph` does not turn into
edges. -/
def chainG : GraphInfo :=
  ⟨[⟨"e1", some "utc", "dev1", "", []⟩,
    ⟨"e2", some "utc", "dev2", "", []⟩,
    ⟨"e3", some "utc", "dev3", "", []⟩],
   [[Cost.fin 0, Cost.fin 1, Cost.inf],
    [Cost.inf, Cost.fin 0, Cost.fin 1],
    [Cost.inf, Cost.inf, Cost.fin 0]],
   [[none, some ⟨2, 0⟩, none],
    [none, none, some ⟨1, 10⟩],
    [none, none, none]],
   [[0, 0, 0], [0, 0, 0], [0, 0, 0]]⟩

/-- C4: `time_convert` walks the minimum-total-weight path edge by edge,
applying each edge's affine mapping to the running value in sequence: on the
3-node chain whose only edges are `0 -> 1` with mapping (scale 2, shift 0)
and `1 -> 2` with mapping (scale 1, shift 10), the path found is `[0, 1, 2]`
and `time_convert(0, 2, 5)` composes the two hops (5 -> 10 -> 20) and
returns `20.0`. -/
theorem time_convert_chain :
    shortestPath chainG.G chainG.nodes.length 0 2 = some [0, 1, 2] ∧
    time_convert chainG 0 2 5 = (some 20, "") := by
  constructor
  · norm_num [shortestPath, relaxIter, relaxStep, betterCand, entry, chainG,
      List.range_succ]
  · norm_num [time_convert, shortestPath, relaxIter, relaxStep, betterCand,
      entry, chainG, List.range_succ, applyPath, TimeMapping.map, Int.toNat]

/-! ### Claim theorems: rule registry -/

/-- C10: `remove_rule` with an out-of-range index (negative or at least the
number of rules) is a silent no-op: no error, the rule list is unchanged, and
the cached graph info is not invalidated (the whole state is returned
untouched). -/
theorem remove_rule_oob_noop (s : SyncGraphState) (index : ℤ)
    (h : index < 0 ∨ (s.rules.length : ℤ) ≤ index) :
    remove_rule s index = s := by
  unfold remove_rule
  rw [if_neg (by omega)]

/-- A rule that never matches, used to build concrete rule lists. -/
def neverMatchRule : SyncRule := fun _ _ => .ret none none

/-- A one-rule graph state with a live cache for the remove_rule witness. -/
def oneRuleState : SyncGraphState := ⟨[neverMatchRule], some emptyGinfo⟩

theorem remove_rule_oob_noop_witness :
    remove_rule oneRuleState 5 = oneRuleState ∧
    remove_rule oneRuleState (-1) = oneRuleState :=
  ⟨remove_rule_oob_noop oneRuleState 5 (Or.inr (by decide)),
   remove_rule_oob_noop oneRuleState (-1) (Or.inl (by decide))⟩

/-! ### Claim theorems: FileFind mappings -/

/-- C7: for every sync file whose parsed content is `(shift, scale)` with
`scale != 0`, the mapping `FileFind._load_sync_file` produces in the reverse
direction is the exact algebraic inverse of the forward mapping
`(scale, shift)`: applying the reverse mapping to `scale * t + shift` gives
back `t`, for every `t` (floats idealized as exact rationals). -/
theorem load_sync_file_reverse_inverse (fs : FileSystem) (filepath : String)
    (data : List ℚ) (hfs : fs filepath = some data)
    (hlen : ¬ data.length < 2) (hscale : data.getD 1 0 ≠ 0)
    (mf mr : TimeMapping)
    (hf : load_sync_file fs filepath false = .ok mf)
    (hr : load_sync_file fs filepath true = .ok mr) (t : ℚ) :
    mr.map (mf.map t) = t := by
  have hscale2 : data[1]?.getD 0 ≠ 0 := by simpa [List.getD] using hscale
  simp [load_sync_file, hfs, hlen, hscale2] at hf hr
  subst hf
  subst hr
  unfold TimeMapping.map
  field_simp

/-- A concrete filesystem for the inverse-mapping witness: the file
`/data/syncfile.txt` holds the two tokens `10 2` (shift 10, scale 2). -/
def fsW : FileSystem :=
  fun p => if p = "/data/syncfile.txt" then some [10, 2] else none

theorem load_sync_file_reverse_inverse_witness :
    load_sync_file fsW "/data/syncfile.txt" false = .ok ⟨2, 10⟩ ∧
    load_sync_file fsW "/data/syncfile.txt" true = .ok ⟨1/2, -5⟩ ∧
    TimeMapping.map ⟨1/2, -5⟩ (TimeMapping.map ⟨2, 10⟩ 7) = 7 :=
  ⟨by simp [load_sync_file, fsW],
   by norm_num [load_sync_file, fsW],
   load_sync_file_reverse_inverse fsW "/data/syncfile.txt" [10, 2]
     (by simp [fsW]) (by simp) (by norm_num) ⟨2, 10⟩ ⟨1/2, -5⟩
     (by simp [load_sync_file, fsW]) (by norm_num [load_sync_file, fsW]) 7⟩

deriving instance DecidableEq for Except

/-- If no file in the searched list has the sync file's basename, the search
loop of `FileFind.apply` raises the `FileNotFoundError`. -/
theorem findSyncFileLoop_no_match (fs : FileSystem) (syncfilename : String)
    (reverse : Bool) (epoch_id : String) (files : List String)
    (h : ∀ f ∈ files, basename f ≠ syncfilename) :
    findSyncFileLoop fs syncfilename reverse epoch_id files =
      .error ("Sync file " ++ syncfilename ++ " not found in epoch " ++
        epoch_id) := by
  induction files with
  | nil => rfl
  | cons f rest ih =>
    unfold findSyncFileLoop
    rw [if_neg (h f (by simp))]
    exact ih fun f2 hf2 => h f2 (by simp [hf2])

/-- C6 (amended): for eligible daqsystem1/daqsystem2 nodes whose shared-file
count meets the threshold, `FileFind.apply` raises a fatal error rather than
returning `(None, None)` when no file named `syncfilename` is present among
the searched node's underlying files -- the full `underlying` list of the
daqsystem1-side node (a's in the forward case, b's in the backward case),
not just the intersection.  (The original claim said "among the intersecting
files"; the code searches the whole list, see the counterexample.) -/
theorem filefind_missing_syncfile_raises (p : FileFindParams)
    (fs : FileSystem) (a b : EpochNode)
    (hcla : strContains a.objectclass "ndi.daq.system" = true)
    (hclb : strContains b.objectclass "ndi.daq.system" = true)
    (hua : a.underlying ≠ []) (hub : b.underlying ≠ [])
    (hcommon : ¬ commonFileCount a.underlying b.underlying <
      p.number_fullpath_matches) :
    ((a.objectname = p.daqsystem1 ∧ b.objectname = p.daqsystem2) →
      (∀ f ∈ a.underlying, basename f ≠ p.syncfilename) →
      FileFind.apply p fs a b = .error ("Sync file " ++ p.syncfilename ++
        " not found in epoch " ++ a.epoch_id)) ∧
    (¬ (a.objectname = p.daqsystem1 ∧ b.objectname = p.daqsystem2) →
      (b.objectname = p.daqsystem1 ∧ a.objectname = p.daqsystem2) →
      (∀ f ∈ b.underlying, basename f ≠ p.syncfilename) →
      FileFind.apply p fs a b = .error ("Sync file " ++ p.syncfilename ++
        " not found in epoch " ++ b.epoch_id)) := by
  constructor
  · intro hfwd hnone
    unfold FileFind.apply
    rw [if_neg (fun h => h.1 hfwd)]
    rw [if_neg (by push_neg; exact ⟨by simpa using hcla, by simpa using hclb⟩)]
    rw [if_neg (by push_neg; exact ⟨hua, hub⟩)]
    rw [if_neg hcommon, if_pos hfwd]
    exact findSyncFileLoop_no_match fs p.syncfilename false a.epoch_id
      a.underlying hnone
  · intro hnfwd hbwd hnone
    unfold FileFind.apply
    rw [if_neg (fun h => h.2 hbwd)]
    rw [if_neg (by push_neg; exact ⟨by simpa using hcla, by simpa using hclb⟩)]
    rw [if_neg (by push_neg; exact ⟨hua, hub⟩)]
    rw [if_neg hcommon, if_neg hnfwd]
    exact findSyncFileLoop_no_match fs p.syncfilename true b.epoch_id
      b.underlying hnone

/-- FileFind parameters used by the concrete FileFind scenarios: threshold 1,
sync file `syncfile.txt`, between DAQ systems `daqA` and `daqB`. -/
def pFF : FileFindParams := ⟨1, "syncfile.txt", "daqA", "daqB"⟩

/-- daqA-side node whose file list contains a sync file that is NOT among the
intersecting files. -/
def aFF : EpochNode :=
  ⟨"eA1", some "dev_local_time", "daqA", "ndi.daq.system.mfdaq",
   ["/d/f1.dat", "/d/syncfile.txt"]⟩

/-- daqB-side node sharing only `/d/f1.dat` with `aFF`. -/
def bFF : EpochNode :=
  ⟨"eB1", some "dev_local_time", "daqB", "ndi.daq.system.mfdaq",
   ["/d/f1.dat"]⟩

/-- Filesystem for the FileFind counterexample: the sync file parses to
`(shift 10, scale 2)`. -/
def fsFF : FileSystem :=
  fun pth => if pth = "/d/syncfile.txt" then some [10, 2] else none

/-- C6 counterexample: an eligible pair meeting the threshold (exactly one
intersecting file, `/d/f1.dat`) where no intersecting file is named
`syncfile.txt`, yet `FileFind.apply` does NOT raise: it finds the sync file
elsewhere in the daqsystem1-side node's file list and returns a match.  This
falsifies the claim that the sync file is looked up among the intersecting
files. -/
theorem filefind_syncfile_outside_intersection :
    commonFileCount aFF.underlying bFF.underlying = 1 ∧
    (1 ≤ pFF.number_fullpath_matches → True) ∧
    (∀ f ∈ (aFF.underlying.filter fun f => bFF.underlying.contains f),
      basename f ≠ pFF.syncfilename) ∧
    FileFind.apply pFF fsFF aFF bFF = .ok (some 1, some ⟨2, 10⟩) := by
  refine ⟨by decide, fun _ => trivial, by decide, ?_⟩
  decide

/-- Nodes for the amended-claim witness: same pair but with no sync file
anywhere in the daqsystem1-side list. -/
def aFF2 : EpochNode :=
  ⟨"eA1", some "dev_local_time", "daqA", "ndi.daq.system.mfdaq",
   ["/d/f1.dat"]⟩

theorem filefind_missing_syncfile_raises_witness :
    FileFind.apply pFF fsFF aFF2 bFF =
      .error ("Sync file " ++ "syncfile.txt" ++ " not found in epoch " ++
        "eA1") :=
  (filefind_missing_syncfile_raises pFF fsFF aFF2 bFF (by decide) (by decide)
      (by decide) (by decide) (by decide)).1 (by decide) (by decide)

/-! ### Rule-failure propagation through graph growth -/

/-- daqA's single epoch node for the rule-failure scenario (no sync file in
its file list). -/
def aSG : EpochNode :=
  ⟨"eA1", some "dev_local_time", "daqA", "ndi.daq.system.mfdaq",
   ["/d/f1.dat"]⟩

/-- daqB's single epoch node, sharing `/d/f1.dat` with `aSG`. -/
def bSG : EpochNode :=
  ⟨"eB1", some "dev_local_time", "daqB", "ndi.daq.system.mfdaq",
   ["/d/f1.dat"]⟩

/-- The two DAQ systems of the rule-failure scenario, each with a trivial
one-epoch internal graph. -/
def daqA : DaqSystem := ⟨[aSG], some ([[Cost.fin 0]], [[none]])⟩

def daqB : DaqSystem := ⟨[bSG], some ([[Cost.fin 0]], [[none]])⟩

/-- A filesystem with no readable files at all. -/
def fsEmpty : FileSystem := fun _ => none

/-- The registered FileFind rule of the rule-failure scenario. -/
def ffRule : SyncRule := FileFind.asRule pFF fsEmpty

/-- C5: a FileFind rule that has established eligibility (matching DAQ names,
DAQ classes, one shared file meeting the threshold) but cannot find its sync
file raises, and `addepoch` propagates the error (second component `some msg`)
rather than discarding it -- but `buildgraphinfo`, whose device loop sits in
`try: ... except Exception: pass`, swallows exactly this error and silently
returns the partially built graph.  The first conjunct shows the rule failure
leaving `addepoch`; the second shows `buildgraphinfo` returning the partial
state with no error channel at all. -/
theorem buildgraphinfo_swallows_rule_failure :
    (addepoch [ffRule] daqB (addepoch [ffRule] daqA emptyGinfo).1).2 =
      some "Sync file syncfile.txt not found in epoch eA1" ∧
    buildgraphinfo [ffRule] [daqA, daqB] =
      (addepoch [ffRule] daqB (addepoch [ffRule] daqA emptyGinfo).1).1 := by
  constructor
  · decide
  · decide

/-! ### Rule competition on one edge (claim C1) -/

/-- Characterization of `ruleLoop`, by induction over the remaining rules:
on success the final best triple is either the starting triple (when no rule
proposed a cost strictly below the start) or the proposal of the FIRST rule
attaining the overall minimum, which then strictly beats the start and every
earlier proposal, and is less than or equal to every proposal. -/
theorem ruleLoop_spec (a b : EpochNode) (rs : List SyncRule) (k : ℕ)
    (bc : Cost) (bm : Option TimeMapping) (bri : ℕ) (bc' : Cost)
    (bm' : Option TimeMapping) (bri' : ℕ)
    (h : ruleLoop a b rs k (bc, bm, bri) = .ok (bc', bm', bri')) :
    Cost.le bc' bc ∧
    ((bri' = bri ∧ bc' = bc ∧ bm' = bm ∧
       ∀ idx r, rs.get? idx = some r → ∀ c m, r a b = .ret (some c) m →
         Cost.le bc (Cost.fin c)) ∨
     (∃ w, bri' = k + w + 1 ∧ ∃ r c m, rs.get? w = some r ∧
       r a b = .ret (some c) m ∧ bc' = Cost.fin c ∧ bm' = m ∧
       Cost.ltb bc' bc = true ∧
       (∀ idx, idx < w → ∀ r2 c2 m2, rs.get? idx = some r2 →
         r2 a b = .ret (some c2) m2 →
         Cost.ltb bc' (Cost.fin c2) = true) ∧
       (∀ idx r2 c2 m2, rs.get? idx = some r2 →
         r2 a b = .ret (some c2) m2 → Cost.le bc' (Cost.fin c2)))) := by
  induction rs generalizing k bc bm bri with
  | nil =>
    simp only [ruleLoop, Except.ok.injEq, Prod.mk.injEq] at h
    obtain ⟨rfl, rfl, rfl⟩ := h
    refine ⟨Cost.le_refl _, Or.inl ⟨rfl, rfl, rfl, ?_⟩⟩
    intro idx r hr
    simp at hr
  | cons r rs ih =>
    unfold ruleLoop at h
    cases hr : r a b with
    | err e => rw [hr] at h; simp at h
    | ret cost mapping =>
      rw [hr] at h
      cases cost with
      | none =>
        simp only at h
        obtain ⟨hle, hcases⟩ := ih (k + 1) bc bm bri h
        refine ⟨hle, ?_⟩
        rcases hcases with ⟨h1, h2, h3, h4⟩ | ⟨w, hw, r1, c1, m1, hget, hprop,
            hbc, hbm, hlt, hearlier, hall⟩
        · refine Or.inl ⟨h1, h2, h3, ?_⟩
          intro idx r2 hr2 c2 m2 hprop2
          cases idx with
          | zero =>
            simp only [List.get?] at hr2
            injection hr2 with hr2
            subst hr2
            rw [hr] at hprop2
            exact absurd hprop2 (by simp)
          | succ n => exact h4 n r2 (by simpa using hr2) c2 m2 hprop2
        · refine Or.inr ⟨w + 1, by omega, r1, c1, m1, by simpa using hget,
            hprop, hbc, hbm, hlt, ?_, ?_⟩
          · intro idx hidx r2 c2 m2 hr2 hprop2
            cases idx with
            | zero =>
              simp only [List.get?] at hr2
              injection hr2 with hr2
              subst hr2
              rw [hr] at hprop2
              exact absurd hprop2 (by simp)
            | succ n =>
              exact hearlier n (by omega) r2 c2 m2 (by simpa using hr2) hprop2
          · intro idx r2 c2 m2 hr2 hprop2
            cases idx with
            | zero =>
              simp only [List.get?] at hr2
              injection hr2 with hr2
              subst hr2
              rw [hr] at hprop2
              exact absurd hprop2 (by simp)
            | succ n => exact hall n r2 c2 m2 (by simpa using hr2) hprop2
      | some cq =>
        simp only at h
        by_cases hlt0 : Cost.ltb (Cost.fin cq) bc = true
        · rw [if_pos hlt0] at h
          obtain ⟨hle, hcases⟩ := ih (k + 1) (Cost.fin cq) mapping (k + 1) h
          refine ⟨Cost.le_trans _ _ _ hle (Cost.le_of_ltb _ _ hlt0), ?_⟩
          rcases hcases with ⟨h1, h2, h3, h4⟩ | ⟨w, hw, r1, c1, m1, hget,
              hprop, hbc, hbm, hltw, hearlier, hall⟩
          · refine Or.inr ⟨0, by omega, r, cq, mapping, rfl, hr, h2, h3,
              h2 ▸ hlt0, ?_, ?_⟩
            · intro idx hidx
              omega
            · intro idx r2 c2 m2 hr2 hprop2
              cases idx with
              | zero =>
                simp only [List.get?] at hr2
                injection hr2 with hr2
                subst hr2
                rw [hr] at hprop2
                injection hprop2 with e1 e2
                injection e1 with e1
                subst e1
                exact h2 ▸ Cost.le_refl _
              | succ n =>
                exact h2 ▸ h4 n r2 (by simpa using hr2) c2 m2 hprop2
          · refine Or.inr ⟨w + 1, by omega, r1, c1, m1, by simpa using hget,
              hprop, hbc, hbm,
              Cost.ltb_of_ltb_of_le _ _ _ hltw (Cost.le_of_ltb _ _ hlt0),
              ?_, ?_⟩
            · intro idx hidx r2 c2 m2 hr2 hprop2
              cases idx with
              | zero =>
                simp only [List.get?] at hr2
                injection hr2 with hr2
                subst hr2
                rw [hr] at hprop2
                injection hprop2 with e1 e2
                injection e1 with e1
                subst e1
                exact hltw
              | succ n =>
                exact hearlier n (by omega) r2 c2 m2 (by simpa using hr2)
                  hprop2
            · intro idx r2 c2 m2 hr2 hprop2
              cases idx with
              | zero =>
                simp only [List.get?] at hr2
                injection hr2 with hr2
                subst hr2
                rw [hr] at hprop2
                injection hprop2 with e1 e2
                injection e1 with e1
                subst e1
                exact Cost.le_of_ltb _ _ hltw
              | succ n => exact hall n r2 c2 m2 (by simpa using hr2) hprop2
        · rw [if_neg hlt0] at h
          obtain ⟨hle, hcases⟩ := ih (k + 1) bc bm bri h
          refine ⟨hle, ?_⟩
          rcases hcases with ⟨h1, h2, h3, h4⟩ | ⟨w, hw, r1, c1, m1, hget,
              hprop, hbc, hbm, hltw, hearlier, hall⟩
          · refine Or.inl ⟨h1, h2, h3, ?_⟩
            intro idx r2 hr2 c2 m2 hprop2
            cases idx with
            | zero =>
              simp only [List.get?] at hr2
              injection hr2 with hr2
              subst hr2
              rw [hr] at hprop2
              injection hprop2 with e1 e2
              injection e1 with e1
              subst e1
              exact Cost.le_of_not_ltb _ _ (by simp [hlt0])
            | succ n => exact h4 n r2 (by simpa using hr2) c2 m2 hprop2
          · have hq : Cost.le bc (Cost.fin cq) :=
              Cost.le_of_not_ltb _ _ (by simp [hlt0])
            refine Or.inr ⟨w + 1, by omega, r1, c1, m1, by simpa using hget,
              hprop, hbc, hbm, hltw, ?_, ?_⟩
            · intro idx hidx r2 c2 m2 hr2 hprop2
              cases idx with
              | zero =>
                simp only [List.get?] at hr2
                injection hr2 with hr2
                subst hr2
                rw [hr] at hprop2
                injection hprop2 with e1 e2
                injection e1 with e1
                subst e1
                exact Cost.ltb_of_ltb_of_le _ _ _ hltw hq
              | succ n =>
                exact hearlier n (by omega) r2 c2 m2 (by simpa using hr2)
                  hprop2
            · intro idx r2 c2 m2 hr2 hprop2
              cases idx with
              | zero =>
                simp only [List.get?] at hr2
                injection hr2 with hr2
                subst hr2
                rw [hr] at hprop2
                injection hprop2 with e1 e2
                injection e1 with e1
                subst e1
                exact Cost.le_of_ltb _ _ (Cost.ltb_of_ltb_of_le _ _ _ hltw hq)
              | succ n => exact hall n r2 c2 m2 (by simpa using hr2) hprop2

/-- The property claim C1 asserts of one ordered cross pair `(i, j)` during
step 3 of `addepoch`: writing `c0` for the cost already stored in the matrix,
`c'` for the cost afterwards and `p` for the rule-provenance entry afterwards:
rules only ever lower the cost; `p = 0` means no rule beat the stored
(automatic or absent) edge strictly, which is left untouched; and `p ≠ 0`
means the rule at 1-based index `p` is the first proposer of the winning
cost: it strictly beats the stored cost and every earlier rule's proposal,
and no rule anywhere proposed anything cheaper. -/
def RuleCompetitionSpec (rules : List SyncRule) (g g' : GraphInfo)
    (i j : ℕ) : Prop :=
  let a := g.nodes.getD i default
  let b := g.nodes.getD j default
  let c0 := entry g.G i j Cost.inf
  let c' := entry g'.G i j Cost.inf
  let p := entry g'.syncRuleG i j 0
  Cost.le c' c0 ∧
  (p = 0 → c' = c0 ∧ entry g'.mapping i j none = entry g.mapping i j none ∧
    ∀ idx r, rules.get? idx = some r → ∀ c m, r a b = .ret (some c) m →
      Cost.le c0 (Cost.fin c)) ∧
  (p ≠ 0 → ∃ r c m, rules.get? (p - 1) = some r ∧ r a b = .ret (some c) m ∧
    c' = Cost.fin c ∧ entry g'.mapping i j none = m ∧
    Cost.ltb c' c0 = true ∧
    (∀ idx, idx < p - 1 → ∀ r2 c2 m2, rules.get? idx = some r2 →
      r2 a b = .ret (some c2) m2 → Cost.ltb c' (Cost.fin c2) = true) ∧
    (∀ idx r2 c2 m2, rules.get? idx = some r2 →
      r2 a b = .ret (some c2) m2 → Cost.le c' (Cost.fin c2)))

/-- C1: during step 3 of `addepoch`, for an ordered cross pair whose
provenance entry is still 0, every registered rule is evaluated in
registration order starting from the cost already stored in the matrix; a
proposal replaces the current best only if strictly cheaper, so rules only
lower and never raise the edge's cost; among equal-cost candidates the first
proposer wins (the automatic/stored edge before any rule, an earlier rule
before a later one); and the winning rule's 1-based index is recorded in the
rule-provenance matrix, 0 meaning the edge stayed automatic or absent. -/
theorem step3pair_rule_competition (rules : List SyncRule)
    (g g' : GraphInfo) (i j : ℕ)
    (hGi : i < g.G.length) (hGj : j < (g.G.getD i []).length)
    (hMi : i < g.mapping.length) (hMj : j < (g.mapping.getD i []).length)
    (hRi : i < g.syncRuleG.length)
    (hRj : j < (g.syncRuleG.getD i []).length)
    (hprov : entry g.syncRuleG i j 0 = 0)
    (hok : step3pair rules g i j = .ok g') :
    RuleCompetitionSpec rules g g' i j := by
  simp only [step3pair] at hok
  cases hrl : ruleLoop (g.nodes.getD i default) (g.nodes.getD j default)
      rules 0 (entry g.G i j Cost.inf, entry g.mapping i j none, 0) with
  | error e => rw [hrl] at hok; simp at hok
  | ok best =>
    obtain ⟨bc, bm, bri⟩ := best
    rw [hrl] at hok
    simp only at hok
    obtain ⟨hle, hcases⟩ := ruleLoop_spec _ _ rules 0 _ _ 0 bc bm bri hrl
    by_cases hfin : Cost.ltb bc Cost.inf = true
    · rw [if_pos hfin] at hok
      rcases hcases with ⟨hbri0, hbc, hbm, hnoprop⟩ |
          ⟨w, hw, r1, c1, m1, hget, hpropose, hbc, hbm, hltw, hearlier, hall⟩
      · subst hbri0
        simp only [gt_iff_lt, Nat.lt_irrefl, if_false] at hok
        injection hok with hok
        subst hok
        refine ⟨?_, ?_, ?_⟩
        · rw [entry_matSet_self _ _ _ _ _ hGi hGj, hbc]
          exact Cost.le_refl _
        · intro _
          refine ⟨by rw [entry_matSet_self _ _ _ _ _ hGi hGj, hbc],
            by rw [entry_matSet_self _ _ _ _ _ hMi hMj, hbm], ?_⟩
          intro idx r hr c m hpr
          exact hbc ▸ hnoprop idx r hr c m hpr
        · intro hp
          exact absurd hprov hp
      · have hbripos : bri > 0 := by omega
        rw [if_pos hbripos] at hok
        injection hok with hok
        subst hok
        have hpval : entry
            (matSet g.syncRuleG i j bri) i j 0 = bri :=
          entry_matSet_self _ _ _ _ _ hRi hRj
        refine ⟨?_, ?_, ?_⟩
        · rw [entry_matSet_self _ _ _ _ _ hGi hGj]
          exact hle
        · intro hp
          rw [hpval] at hp
          omega
        · intro _
          rw [hpval]
          have hw0 : bri - 1 = w := by omega
          refine ⟨r1, c1, m1, hw0 ▸ hget, hpropose, ?_, ?_, ?_, ?_, ?_⟩
          · rw [entry_matSet_self _ _ _ _ _ hGi hGj, hbc]
          · rw [entry_matSet_self _ _ _ _ _ hMi hMj, hbm]
          · rw [entry_matSet_self _ _ _ _ _ hGi hGj]
            exact hltw
          · intro idx hidx r2 c2 m2 hr2 hpr2
            rw [entry_matSet_self _ _ _ _ _ hGi hGj]
            exact hearlier idx (by omega) r2 c2 m2 hr2 hpr2
          · intro idx r2 c2 m2 hr2 hpr2
            rw [entry_matSet_self _ _ _ _ _ hGi hGj]
            exact hall idx r2 c2 m2 hr2 hpr2
    · rw [if_neg hfin] at hok
      injection hok with hok
      subst hok
      rcases hcases with ⟨hbri0, hbc, hbm, hnoprop⟩ |
          ⟨w, hw, r1, c1, m1, hget, hpropose, hbc, hbm, hltw, hearlier, hall⟩
      · refine ⟨Cost.le_refl _, ?_, ?_⟩
        · intro _
          exact ⟨rfl, rfl, fun idx r hr c m hpr =>
            hbc ▸ hnoprop idx r hr c m hpr⟩
        · intro hp
          exact absurd hprov hp
      · exfalso
        subst hbc
        simp [Cost.ltb] at hfin

/-- Three concrete rules for the rule-competition witness: registered order
`[rule7, rule5, rule5b]`; `rule5` and `rule5b` tie on cost 5, and `rule5`
(the earlier registration) must win. -/
def rule7 : SyncRule := fun _ _ => .ret (some 7) (some ⟨2, 0⟩)

def rule5 : SyncRule := fun _ _ => .ret (some 5) (some ⟨1, 0⟩)

def rule5b : SyncRule := fun _ _ => .ret (some 5) (some ⟨3, 0⟩)

/-- Two-node graph before step 3 runs on the pair `(0, 1)`. -/
def c1g : GraphInfo :=
  ⟨[aSG, bSG],
   [[Cost.fin 0, Cost.inf], [Cost.inf, Cost.fin 0]],
   [[none, none], [none, none]],
   [[0, 0], [0, 0]]⟩

/-- The same graph after `step3pair` on `(0, 1)`: cost 5, `rule5`'s mapping,
provenance 2 (the 1-based index of `rule5`). -/
def c1gAfter : GraphInfo :=
  ⟨[aSG, bSG],
   [[Cost.fin 0, Cost.fin 5], [Cost.inf, Cost.fin 0]],
   [[none, some ⟨1, 0⟩], [none, none]],
   [[0, 2], [0, 0]]⟩

theorem step3pair_rule_competition_witness :
    RuleCompetitionSpec [rule7, rule5, rule5b] c1g c1gAfter 0 1 :=
  step3pair_rule_competition [rule7, rule5, rule5b] c1g c1gAfter 0 1
    (by decide) (by decide) (by decide) (by decide) (by decide) (by decide)
    (by decide) (by decide)

/-! ### Frame lemmas for addepoch (claim C9) -/

theorem getD_range_map (f : ℕ → α) (n i : ℕ) (d : α) (h : i < n) :
    (((List.range n).map f).getD i d) = f i := by
  rw [List.getD_eq_getElem?_getD, List.getElem?_map, List.getElem?_range h]
  rfl

theorem entry_expandBlocks (oldM newM : List (List α)) (fill d : α)
    (old_n total_n i j : ℕ) (hi : i < total_n) (hj : j < total_n) :
    entry (expandBlocks oldM newM fill old_n total_n) i j d =
      if i < old_n then (if j < old_n then entry oldM i j fill else fill)
      else (if j < old_n then fill
            else entry newM (i - old_n) (j - old_n) fill) := by
  unfold entry expandBlocks
  rw [getD_range_map _ _ _ _ hi, getD_range_map _ _ _ _ hj]
  rfl

theorem crossPairs_mem (old_n total_n : ℕ) (p : ℕ × ℕ)
    (h : p ∈ crossPairs old_n total_n) :
    p.1 < old_n ∧ old_n ≤ p.2 ∧ p.2 < total_n := by
  simp only [crossPairs, List.mem_bind, List.mem_map, List.mem_range] at h
  obtain ⟨i, hi, k, hk, rfl⟩ := h
  exact ⟨hi, by omega, by omega⟩

/-- `step2pair` never touches the node list or the provenance matrix, and
touches `G`/`mapping` only at `(i, j)` and `(j, i)`. -/
theorem step2pair_preserved (g : GraphInfo) (i j a b : ℕ)
    (h1 : ¬ (a = i ∧ b = j)) (h2 : ¬ (a = j ∧ b = i)) :
    (step2pair g i j).nodes = g.nodes ∧
    (step2pair g i j).syncRuleG = g.syncRuleG ∧
    entry (step2pair g i j).G a b Cost.inf = entry g.G a b Cost.inf ∧
    entry (step2pair g i j).mapping a b none = entry g.mapping a b none := by
  have hne1 : a ≠ i ∨ b ≠ j := by tauto
  have hne2 : a ≠ j ∨ b ≠ i := by tauto
  have gG : ∀ (m : List (List Cost)) (v : Cost),
      entry (matSet m i j v) a b Cost.inf = entry m a b Cost.inf :=
    fun m v => entry_matSet_ne m i j a b v Cost.inf hne1
  have gG2 : ∀ (m : List (List Cost)) (v : Cost),
      entry (matSet m j i v) a b Cost.inf = entry m a b Cost.inf :=
    fun m v => entry_matSet_ne m j i a b v Cost.inf hne2
  have gM : ∀ (m : List (List (Option TimeMapping))) (v : Option TimeMapping),
      entry (matSet m i j v) a b none = entry m a b none :=
    fun m v => entry_matSet_ne m i j a b v none hne1
  have gM2 : ∀ (m : List (List (Option TimeMapping)))
      (v : Option TimeMapping),
      entry (matSet m j i v) a b none = entry m a b none :=
    fun m v => entry_matSet_ne m j i a b v none hne2
  simp only [step2pair]
  split
  · split <;> split <;>
      exact ⟨rfl, rfl, by simp only [gG, gG2], by simp only [gM, gM2]⟩
  · exact ⟨rfl, rfl, rfl, rfl⟩

/-- The step-2 fold preserves every position that is not a cross position
(in either direction) of any visited pair. -/
theorem step2fold_preserved (ps : List (ℕ × ℕ)) (g : GraphInfo) (a b : ℕ)
    (h : ∀ p ∈ ps, ¬ (a = p.1 ∧ b = p.2) ∧ ¬ (a = p.2 ∧ b = p.1)) :
    (ps.foldl (fun g p => step2pair g p.1 p.2) g).nodes = g.nodes ∧
    (ps.foldl (fun g p => step2pair g p.1 p.2) g).syncRuleG = g.syncRuleG ∧
    entry (ps.foldl (fun g p => step2pair g p.1 p.2) g).G a b Cost.inf =
      entry g.G a b Cost.inf ∧
    entry (ps.foldl (fun g p => step2pair g p.1 p.2) g).mapping a b none =
      entry g.mapping a b none := by
  induction ps generalizing g with
  | nil => exact ⟨rfl, rfl, rfl, rfl⟩
  | cons p ps ih =>
    obtain ⟨hp1, hp2⟩ := h p (by simp)
    obtain ⟨e1, e2, e3, e4⟩ := step2pair_preserved g p.1 p.2 a b hp1 hp2
    obtain ⟨f1, f2, f3, f4⟩ :=
      ih (step2pair g p.1 p.2) (fun q hq => h q (by simp [hq]))
    exact ⟨by rw [List.foldl_cons, f1, e1], by rw [List.foldl_cons, f2, e2],
      by rw [List.foldl_cons, f3, e3], by rw [List.foldl_cons, f4, e4]⟩

/-- A successful `step3pair` on `(i, j)` never touches the node list and
touches the matrices only at `(i, j)`. -/
theorem step3pair_preserved (rules : List SyncRule) (g g' : GraphInfo)
    (i j : ℕ) (hok : step3pair rules g i j = .ok g') (a b : ℕ)
    (h : ¬ (a = i ∧ b = j)) :
    g'.nodes = g.nodes ∧
    entry g'.G a b Cost.inf = entry g.G a b Cost.inf ∧
    entry g'.mapping a b none = entry g.mapping a b none ∧
    entry g'.syncRuleG a b 0 = entry g.syncRuleG a b 0 := by
  have hne : a ≠ i ∨ b ≠ j := by tauto
  simp only [step3pair] at hok
  cases hrl : ruleLoop (g.nodes.getD i default) (g.nodes.getD j default)
      rules 0 (entry g.G i j Cost.inf, entry g.mapping i j none, 0) with
  | error e => rw [hrl] at hok; simp at hok
  | ok best =>
    obtain ⟨bc, bm, bri⟩ := best
    rw [hrl] at hok
    simp only at hok
    by_cases hfin : Cost.ltb bc Cost.inf = true
    · rw [if_pos hfin] at hok
      by_cases hbri : bri > 0
      · rw [if_pos hbri] at hok
        injection hok with hok
        subst hok
        exact ⟨rfl, entry_matSet_ne _ _ _ _ _ _ _ hne,
          entry_matSet_ne _ _ _ _ _ _ _ hne,
          entry_matSet_ne _ _ _ _ _ _ _ hne⟩
      · rw [if_neg hbri] at hok
        injection hok with hok
        subst hok
        exact ⟨rfl, entry_matSet_ne _ _ _ _ _ _ _ hne,
          entry_matSet_ne _ _ _ _ _ _ _ hne, rfl⟩
    · rw [if_neg hfin] at hok
      injection hok with hok
      subst hok
      exact ⟨rfl, rfl, rfl, rfl⟩

/-- The step-3 loop preserves every position that is not a cross position of
any visited pair, whether or not a rule raised along the way (the first
component of the result is the state at the time of the exception). -/
theorem step3go_preserved (rules : List SyncRule) (ps : List (ℕ × ℕ))
    (g : GraphInfo) (a b : ℕ)
    (h : ∀ p ∈ ps, ¬ (a = p.1 ∧ b = p.2) ∧ ¬ (a = p.2 ∧ b = p.1)) :
    (step3go rules ps g).1.nodes = g.nodes ∧
    entry (step3go rules ps g).1.G a b Cost.inf = entry g.G a b Cost.inf ∧
    entry (step3go rules ps g).1.mapping a b none =
      entry g.mapping a b none ∧
    entry (step3go rules ps g).1.syncRuleG a b 0 =
      entry g.syncRuleG a b 0 := by
  induction ps generalizing g with
  | nil => exact ⟨rfl, rfl, rfl, rfl⟩
  | cons p ps ih =>
    obtain ⟨p1, p2⟩ := p
    obtain ⟨hp1, hp2⟩ := h (p1, p2) (by simp)
    unfold step3go
    cases h1 : step3pair rules g p1 p2 with
    | error e => exact ⟨rfl, rfl, rfl, rfl⟩
    | ok g1 =>
      dsimp only
      obtain ⟨e1, e2, e3, e4⟩ := step3pair_preserved rules g g1 p1 p2 h1 a b hp1
      cases h2 : step3pair rules g1 p2 p1 with
      | error e => exact ⟨e1, e2, e3, e4⟩
      | ok g2 =>
        dsimp only
        obtain ⟨f1, f2, f3, f4⟩ := step3pair_preserved rules g1 g2 p2 p1 h2 a b
          (by tauto)
        obtain ⟨k1, k2, k3, k4⟩ := ih g2 (fun q hq => h q (by simp [hq]))
        exact ⟨by rw [k1, f1, e1], by rw [k2, f2, e2], by rw [k3, f3, e3],
          by rw [k4, f4, e4]⟩

/-- C9: `addepoch` never modifies an existing entry.  With `old_n` the node
count before the call: every `G`/`mapping`/`syncRuleG` entry with both
indices below `old_n` is unchanged (the old top-left block is preserved), and
the new bottom-right block equals the device's internal matrices; steps 2 and
3 write only the cross blocks.  This holds for the state `addepoch` returns
whether or not a rule raised along the way. -/
theorem addepoch_frame (rules : List SyncRule) (daq : DaqSystem)
    (g : GraphInfo) (dc : List (List Cost))
    (dm : List (List (Option TimeMapping)))
    (hdg : daq.epochgraph = some (dc, dm)) :
    (∀ i j, i < g.nodes.length → j < g.nodes.length →
      entry (addepoch rules daq g).1.G i j Cost.inf =
        entry g.G i j Cost.inf ∧
      entry (addepoch rules daq g).1.mapping i j none =
        entry g.mapping i j none ∧
      entry (addepoch rules daq g).1.syncRuleG i j 0 =
        entry g.syncRuleG i j 0) ∧
    (∀ i j, i < daq.epochnodes.length → j < daq.epochnodes.length →
      entry (addepoch rules daq g).1.G (g.nodes.length + i)
          (g.nodes.length + j) Cost.inf = entry dc i j Cost.inf ∧
      entry (addepoch rules daq g).1.mapping (g.nodes.length + i)
          (g.nodes.length + j) none = entry dm i j none) := by
  by_cases hnew : daq.epochnodes.length = 0
  · constructor
    · intro i j hi hj
      simp only [addepoch, if_pos hnew]
      exact ⟨by trivial, by trivial, by trivial⟩
    · intro i j hi hj
      omega
  · have hnn : 0 < daq.epochnodes.length := Nat.pos_of_ne_zero hnew
    set old_n := g.nodes.length with hold
    set total_n := old_n + daq.epochnodes.length with htotal
    set g1 : GraphInfo :=
      { nodes := g.nodes ++ daq.epochnodes,
        G := if old_n = 0 then dc
             else expandBlocks g.G dc Cost.inf old_n total_n,
        mapping := if old_n = 0 then dm
                   else expandBlocks g.mapping dm none old_n total_n,
        syncRuleG := if old_n = 0 then zerosLike dc
                     else expandBlocks g.syncRuleG
                       (matFull daq.epochnodes.length 0) 0 old_n total_n }
      with hg1
    have hunfold : (addepoch rules daq g).1 =
        (if rules.length > 0 then
          step3go rules (crossPairs old_n total_n) (step2 g1 old_n total_n)
        else (step2 g1 old_n total_n, none)).1 := by
      simp only [addepoch, hdg, if_neg hnew]
    have hfinal : ∀ a b : ℕ,
        (∀ p ∈ crossPairs old_n total_n,
          ¬ (a = p.1 ∧ b = p.2) ∧ ¬ (a = p.2 ∧ b = p.1)) →
        entry (addepoch rules daq g).1.G a b Cost.inf =
          entry g1.G a b Cost.inf ∧
        entry (addepoch rules daq g).1.mapping a b none =
          entry g1.mapping a b none ∧
        entry (addepoch rules daq g).1.syncRuleG a b 0 =
          entry g1.syncRuleG a b 0 := by
      intro a b hps
      obtain ⟨n2, R2, G2, M2⟩ :=
        step2fold_preserved (crossPairs old_n total_n) g1 a b hps
      have hstep2G : entry (step2 g1 old_n total_n).G a b Cost.inf =
          entry g1.G a b Cost.inf := G2
      have hstep2M : entry (step2 g1 old_n total_n).mapping a b none =
          entry g1.mapping a b none := M2
      have hstep2R : entry (step2 g1 old_n total_n).syncRuleG a b 0 =
          entry g1.syncRuleG a b 0 := by
        show entry ((crossPairs old_n total_n).foldl
          (fun g p => step2pair g p.1 p.2) g1).syncRuleG a b 0 = _
        rw [R2]
      by_cases hr : rules.length > 0
      · rw [hunfold, if_pos hr]
        obtain ⟨n3, G3, M3, R3⟩ := step3go_preserved rules
          (crossPairs old_n total_n) (step2 g1 old_n total_n) a b hps
        exact ⟨by rw [G3, hstep2G], by rw [M3, hstep2M], by rw [R3, hstep2R]⟩
      · rw [hunfold, if_neg hr]
        exact ⟨hstep2G, hstep2M, hstep2R⟩
    constructor
    · intro i j hi hj
      have hps : ∀ p ∈ crossPairs old_n total_n,
          ¬ (i = p.1 ∧ j = p.2) ∧ ¬ (i = p.2 ∧ j = p.1) := by
        intro p hp
        obtain ⟨h1, h2, h3⟩ := crossPairs_mem _ _ p hp
        omega
      obtain ⟨hG, hM, hR⟩ := hfinal i j hps
      have hpos : ¬ old_n = 0 := by omega
      refine ⟨?_, ?_, ?_⟩
      · rw [hG]
        show entry (if old_n = 0 then dc
          else expandBlocks g.G dc Cost.inf old_n total_n) i j Cost.inf = _
        rw [if_neg hpos,
          entry_expandBlocks _ _ _ _ _ _ _ _ (by omega) (by omega),
          if_pos hi, if_pos hj]
      · rw [hM]
        show entry (if old_n = 0 then dm
          else expandBlocks g.mapping dm none old_n total_n) i j none = _
        rw [if_neg hpos,
          entry_expandBlocks _ _ _ _ _ _ _ _ (by omega) (by omega),
          if_pos hi, if_pos hj]
      · rw [hR]
        show entry (if old_n = 0 then zerosLike dc
          else expandBlocks g.syncRuleG (matFull daq.epochnodes.length 0) 0
            old_n total_n) i j 0 = _
        rw [if_neg hpos,
          entry_expandBlocks _ _ _ _ _ _ _ _ (by omega) (by omega),
          if_pos hi, if_pos hj]
    · intro i j hi hj
      have hps : ∀ p ∈ crossPairs old_n total_n,
          ¬ (old_n + i = p.1 ∧ old_n + j = p.2) ∧
          ¬ (old_n + i = p.2 ∧ old_n + j = p.1) := by
        intro p hp
        obtain ⟨h1, h2, h3⟩ := crossPairs_mem _ _ p hp
        omega
      obtain ⟨hG, hM, hR⟩ := hfinal (old_n + i) (old_n + j) hps
      by_cases hz : old_n = 0
      · refine ⟨?_, ?_⟩
        · rw [hG]
          show entry (if old_n = 0 then dc
            else expandBlocks g.G dc Cost.inf old_n total_n) (old_n + i)
              (old_n + j) Cost.inf = _
          rw [if_pos hz, hz]
          simp
        · rw [hM]
          show entry (if old_n = 0 then dm
            else expandBlocks g.mapping dm none old_n total_n) (old_n + i)
              (old_n + j) none = _
          rw [if_pos hz, hz]
          simp
      · refine ⟨?_, ?_⟩
        · rw [hG]
          show entry (if old_n = 0 then dc
            else expandBlocks g.G dc Cost.inf old_n total_n) (old_n + i)
              (old_n + j) Cost.inf = _
          rw [if_neg hz,
            entry_expandBlocks _ _ _ _ _ _ _ _ (by omega) (by omega),
            if_neg (by omega), if_neg (by omega)]
          simp
        · rw [hM]
          show entry (if old_n = 0 then dm
            else expandBlocks g.mapping dm none old_n total_n) (old_n + i)
              (old_n + j) none = _
          rw [if_neg hz,
            entry_expandBlocks _ _ _ _ _ _ _ _ (by omega) (by omega),
            if_neg (by omega), if_neg (by omega)]
          simp

theorem addepoch_frame_witness :
    (∀ i j, i < c1g.nodes.length → j < c1g.nodes.length →
      entry (addepoch [rule5] daqB c1g).1.G i j Cost.inf =
        entry c1g.G i j Cost.inf ∧
      entry (addepoch [rule5] daqB c1g).1.mapping i j none =
        entry c1g.mapping i j none ∧
      entry (addepoch [rule5] daqB c1g).1.syncRuleG i j 0 =
        entry c1g.syncRuleG i j 0) ∧
    (∀ i j, i < daqB.epochnodes.length → j < daqB.epochnodes.length →
      entry (addepoch [rule5] daqB c1g).1.G (c1g.nodes.length + i)
          (c1g.nodes.length + j) Cost.inf =
        entry [[Cost.fin 0]] i j Cost.inf ∧
      entry (addepoch [rule5] daqB c1g).1.mapping (c1g.nodes.length + i)
          (c1g.nodes.length + j) none =
        entry [[(none : Option TimeMapping)]] i j none) :=
  addepoch_frame [rule5] daqB c1g [[Cost.fin 0]]
    [[(none : Option TimeMapping)]] rfl

/-! ### The cost/mapping lock-step invariant (claim C3) -/

theorem getD_mem (l : List α) (i : ℕ) (d : α) (h : i < l.length) :
    l.getD i d ∈ l := by
  induction l generalizing i with
  | nil => simp at h
  | cons a t ih =>
    cases i with
    | zero => simp
    | succ n => simpa using Or.inr (ih n (by simpa using h))

/-- A matrix is square of size `n`. -/
def Square (n : ℕ) (m : List (List α)) : Prop :=
  m.length = n ∧ ∀ row ∈ m, row.length = n

instance (n : ℕ) (m : List (List α)) : Decidable (Square n m) := by
  unfold Square
  infer_instance

theorem square_matSet (n : ℕ) (m : List (List α)) (i j : ℕ) (v : α)
    (h : Square n m) : Square n (matSet m i j v) := by
  obtain ⟨hlen, hrows⟩ := h
  by_cases hi : i < m.length
  · refine ⟨by rw [length_matSet, hlen], ?_⟩
    intro row hrow
    rcases List.mem_or_eq_of_mem_set hrow with hmem | heq
    · exact hrows row hmem
    · subst heq
      rw [List.length_set]
      exact hrows _ (getD_mem m i [] hi)
  · unfold matSet
    rw [set_oob m i _ (by omega)]
    exact ⟨hlen, hrows⟩

theorem square_matFull (n : ℕ) (v : α) : Square n (matFull n v) := by
  refine ⟨by simp [matFull], ?_⟩
  intro row hrow
  rw [List.eq_of_mem_replicate hrow]
  simp

theorem entry_matFull (n i j : ℕ) (v d : α) (hi : i < n) (hj : j < n) :
    entry (matFull n v) i j d = v := by
  unfold entry matFull
  have h1 : (List.replicate n (List.replicate n v)).getD i [] =
      List.replicate n v := by
    rw [List.getD_eq_getElem?_getD, List.getElem?_replicate, if_pos hi]
    rfl
  rw [h1, List.getD_eq_getElem?_getD, List.getElem?_replicate, if_pos hj]
  rfl

theorem square_expandBlocks (oldM newM : List (List α)) (fill : α)
    (old_n total_n : ℕ) :
    Square total_n (expandBlocks oldM newM fill old_n total_n) := by
  refine ⟨by simp [expandBlocks], ?_⟩
  intro row hrow
  simp only [expandBlocks, List.mem_map, List.mem_range] at hrow
  obtain ⟨i, hi, rfl⟩ := hrow
  simp

theorem square_zerosLike (n : ℕ) (m : List (List Cost)) (h : Square n m) :
    Square n (zerosLike m) := by
  obtain ⟨hlen, hrows⟩ := h
  refine ⟨by simp [zerosLike, hlen], ?_⟩
  intro row hrow
  simp only [zerosLike, List.mem_map] at hrow
  obtain ⟨r0, hr0, rfl⟩ := hrow
  simp [hrows r0 hr0]

/-- The graph invariant of claim C3: the three matrices are square of size
equal to the node count, and `mapping[i][j]` is absent exactly when
`cost[i][j]` is infinite. -/
def InvariantHolds (g : GraphInfo) : Prop :=
  Square g.nodes.length g.G ∧ Square g.nodes.length g.mapping ∧
  Square g.nodes.length g.syncRuleG ∧
  ∀ i < g.nodes.length, ∀ j < g.nodes.length,
    (entry g.mapping i j none = none ↔ entry g.G i j Cost.inf = Cost.inf)

instance (g : GraphInfo) : Decidable (InvariantHolds g) := by
  unfold InvariantHolds
  infer_instance

/-- A device input satisfies the invariant: its internal matrices are square
of size equal to its node count and in lock-step.  (A device without an
`epochgraph` attribute qualifies trivially: `addepoch` fills in the
all-inf/all-None default for it.) -/
def DaqWellFormed (daq : DaqSystem) : Prop :=
  match daq.epochgraph with
  | none => True
  | some (dc, dm) =>
    Square daq.epochnodes.length dc ∧ Square daq.epochnodes.length dm ∧
    ∀ i < daq.epochnodes.length, ∀ j < daq.epochnodes.length,
      (entry dm i j none = none ↔ entry dc i j Cost.inf = Cost.inf)

instance (daq : DaqSystem) : Decidable (DaqWellFormed daq) :=
  match hdg : daq.epochgraph with
  | none => .isTrue (by unfold DaqWellFormed; rw [hdg]; trivial)
  | some (dc, dm) => by unfold DaqWellFormed; rw [hdg]; infer_instance

/-- A rule obeys the SyncRule contract of spec §3: when it returns a cost it
also returns a mapping (`(cost, mapping) | (None, None)`). -/
def RuleWellFormed (r : SyncRule) : Prop :=
  ∀ a b c m, r a b = RuleOutcome.ret (some c) m → ∃ tm, m = some tm

/-- Graph states reachable from the empty graph by successful `addepoch`
calls with well-formed device inputs. -/
inductive Reachable (rules : List SyncRule) : GraphInfo → Prop where
  | empty : Reachable rules emptyGinfo
  | step (g g' : GraphInfo) (daq : DaqSystem) : Reachable rules g →
      DaqWellFormed daq → addepoch rules daq g = (g', none) →
      Reachable rules g'

/-- The automatic edge is always either the full `(100, identity)` proposal
or the absent `(inf, None)` one. -/
theorem automatic_clock_mapping_cases (ni nj : EpochNode) :
    automatic_clock_mapping ni nj = (Cost.fin 100, some identityMapping) ∨
    automatic_clock_mapping ni nj = (Cost.inf, none) := by
  unfold automatic_clock_mapping
  rcases hni : ni.epoch_clock with _ | ti <;>
    rcases hnj : nj.epoch_clock with _ | tj
  · exact Or.inr rfl
  · exact Or.inr rfl
  · exact Or.inr rfl
  · dsimp only
    split_ifs <;> simp

theorem step2pair_nodes (g : GraphInfo) (i j : ℕ) :
    (step2pair g i j).nodes = g.nodes := by
  simp only [step2pair]
  split
  · split <;> split <;> rfl
  · rfl

/-- Writing cost `100` and the identity mapping together at an in-range
position preserves the invariant. -/
theorem write_auto_invariant (g0 : GraphInfo) (a b : ℕ)
    (ha : a < g0.nodes.length) (hb : b < g0.nodes.length)
    (hinv0 : InvariantHolds g0) :
    InvariantHolds
      { g0 with G := matSet g0.G a b (Cost.fin 100),
                mapping := matSet g0.mapping a b (some identityMapping) } := by
  obtain ⟨⟨hG1, hG2⟩, ⟨hM1, hM2⟩, hR, hlock⟩ := hinv0
  refine ⟨square_matSet _ _ _ _ _ ⟨hG1, hG2⟩,
    square_matSet _ _ _ _ _ ⟨hM1, hM2⟩, hR, ?_⟩
  intro x hx y hy
  by_cases hxy : x = a ∧ y = b
  · obtain ⟨rfl, rfl⟩ := hxy
    have hrG := hG2 _ (getD_mem g0.G x [] (by omega))
    have hrM := hM2 _ (getD_mem g0.mapping x [] (by omega))
    rw [entry_matSet_self _ _ _ _ _ (by omega) (by omega),
      entry_matSet_self _ _ _ _ _ (by omega) (by omega)]
    simp
  · have hne : x ≠ a ∨ y ≠ b := by tauto
    rw [entry_matSet_ne _ _ _ _ _ _ _ hne, entry_matSet_ne _ _ _ _ _ _ _ hne]
    exact hlock x hx y hy

/-- One step-2 pair preserves the invariant (it writes cost `100` and the
identity mapping together, or writes nothing). -/
theorem step2pair_invariant (g : GraphInfo) (i j : ℕ)
    (hi : i < g.nodes.length) (hj : j < g.nodes.length)
    (hinv : InvariantHolds g) : InvariantHolds (step2pair g i j) := by
  by_cases hij : i ≠ j
  case neg =>
    unfold step2pair
    rw [if_neg hij]
    exact hinv
  case pos =>
    simp only [step2pair]
    rw [if_pos hij]
    rcases automatic_clock_mapping_cases (g.nodes.getD i default)
        (g.nodes.getD j default) with hc1 | hc1 <;>
      rcases automatic_clock_mapping_cases (g.nodes.getD j default)
          (g.nodes.getD i default) with hc2 | hc2 <;>
      rw [hc1, hc2]
    all_goals
      have e1 : Cost.ltb ((Cost.fin 100,
        (some identityMapping : Option TimeMapping))).1 Cost.inf = true := rfl
    all_goals
      have e2 : ¬ Cost.ltb ((Cost.inf,
        (none : Option TimeMapping))).1 Cost.inf = true := by decide
    · rw [if_pos e1, if_pos e1]
      exact write_auto_invariant _ j i hj hi
        (write_auto_invariant g i j hi hj hinv)
    · rw [if_neg e2, if_pos e1]
      exact write_auto_invariant g i j hi hj hinv
    · rw [if_pos e1, if_neg e2]
      exact write_auto_invariant g j i hj hi hinv
    · rw [if_neg e2, if_neg e2]
      exact hinv

/-- The whole step-2 fold preserves the invariant when every visited pair is
in range. -/
theorem step2fold_invariant (ps : List (ℕ × ℕ)) (g : GraphInfo)
    (hps : ∀ p ∈ ps, p.1 < g.nodes.length ∧ p.2 < g.nodes.length)
    (hinv : InvariantHolds g) :
    InvariantHolds (ps.foldl (fun g p => step2pair g p.1 p.2) g) := by
  induction ps generalizing g with
  | nil => exact hinv
  | cons p ps ih =>
    obtain ⟨hp1, hp2⟩ := hps p (by simp)
    rw [List.foldl_cons]
    refine ih (step2pair g p.1 p.2) ?_
      (step2pair_invariant g p.1 p.2 hp1 hp2 hinv)
    intro q hq
    rw [step2pair_nodes]
    exact hps q (by simp [hq])

/-- The rule loop keeps the running best mapping present whenever the running
best cost is finite, provided every rule obeys the SyncRule contract. -/
theorem ruleLoop_mapping_present (a b : EpochNode) (rs : List SyncRule)
    (k : ℕ) (bc : Cost) (bm : Option TimeMapping) (bri : ℕ) (bc' : Cost)
    (bm' : Option TimeMapping) (bri' : ℕ)
    (hwf : ∀ r ∈ rs, RuleWellFormed r)
    (hstart : Cost.ltb bc Cost.inf = true → ∃ tm, bm = some tm)
    (h : ruleLoop a b rs k (bc, bm, bri) = .ok (bc', bm', bri')) :
    Cost.ltb bc' Cost.inf = true → ∃ tm, bm' = some tm := by
  induction rs generalizing k bc bm bri with
  | nil =>
    simp only [ruleLoop, Except.ok.injEq, Prod.mk.injEq] at h
    obtain ⟨rfl, rfl, rfl⟩ := h
    exact hstart
  | cons r rs ih =>
    unfold ruleLoop at h
    cases hr : r a b with
    | err e => rw [hr] at h; simp at h
    | ret cost mapping =>
      rw [hr] at h
      cases cost with
      | none =>
        simp only at h
        exact ih (k + 1) bc bm bri (fun r2 hr2 => hwf r2 (by simp [hr2]))
          hstart h
      | some cq =>
        simp only at h
        by_cases hlt0 : Cost.ltb (Cost.fin cq) bc = true
        · rw [if_pos hlt0] at h
          refine ih (k + 1) (Cost.fin cq) mapping (k + 1)
            (fun r2 hr2 => hwf r2 (by simp [hr2])) ?_ h
          intro _
          exact hwf r (by simp) a b cq mapping hr
        · rw [if_neg hlt0] at h
          exact ih (k + 1) bc bm bri (fun r2 hr2 => hwf r2 (by simp [hr2]))
            hstart h

/-- A successful `step3pair` on an in-range pair preserves the invariant,
provided every registered rule obeys the SyncRule contract. -/
theorem step3pair_invariant (rules : List SyncRule) (g g' : GraphInfo)
    (i j : ℕ) (hi : i < g.nodes.length) (hj : j < g.nodes.length)
    (hwf : ∀ r ∈ rules, RuleWellFormed r) (hinv : InvariantHolds g)
    (hok : step3pair rules g i j = .ok g') : InvariantHolds g' := by
  obtain ⟨⟨hG1, hG2⟩, ⟨hM1, hM2⟩, hR, hlock⟩ := hinv
  simp only [step3pair] at hok
  cases hrl : ruleLoop (g.nodes.getD i default) (g.nodes.getD j default)
      rules 0 (entry g.G i j Cost.inf, entry g.mapping i j none, 0) with
  | error e => rw [hrl] at hok; simp at hok
  | ok best =>
    obtain ⟨bc, bm, bri⟩ := best
    rw [hrl] at hok
    simp only at hok
    have hpres : Cost.ltb bc Cost.inf = true → ∃ tm, bm = some tm := by
      refine ruleLoop_mapping_present _ _ rules 0 _ _ 0 bc bm bri hwf ?_ hrl
      intro hfin
      rcases hm : entry g.mapping i j none with _ | tm
      · exfalso
        have hGinf : entry g.G i j Cost.inf = Cost.inf :=
          (hlock i hi j hj).1 hm
        rw [hGinf] at hfin
        simp [Cost.ltb] at hfin
      · exact ⟨tm, rfl⟩
    by_cases hfin : Cost.ltb bc Cost.inf = true
    · rw [if_pos hfin] at hok
      obtain ⟨tm, rfl⟩ := hpres hfin
      obtain ⟨q, rfl⟩ := Cost.fin_of_ltb_inf bc hfin
      have hcore : InvariantHolds
          { g with G := matSet g.G i j (Cost.fin q),
                   mapping := matSet g.mapping i j (some tm) } := by
        refine ⟨square_matSet _ _ _ _ _ ⟨hG1, hG2⟩,
          square_matSet _ _ _ _ _ ⟨hM1, hM2⟩, hR, ?_⟩
        intro x hx y hy
        by_cases hxy : x = i ∧ y = j
        · obtain ⟨rfl, rfl⟩ := hxy
          have hrG := hG2 _ (getD_mem g.G x [] (by omega))
          have hrM := hM2 _ (getD_mem g.mapping x [] (by omega))
          rw [entry_matSet_self _ _ _ _ _ (by omega) (by omega),
            entry_matSet_self _ _ _ _ _ (by omega) (by omega)]
          simp
        · have hne : x ≠ i ∨ y ≠ j := by tauto
          rw [entry_matSet_ne _ _ _ _ _ _ _ hne,
            entry_matSet_ne _ _ _ _ _ _ _ hne]
          exact hlock x hx y hy
      by_cases hbri : bri > 0
      · rw [if_pos hbri] at hok
        injection hok with hok
        subst hok
        obtain ⟨c1, c2, c3, c4⟩ := hcore
        exact ⟨c1, c2, square_matSet _ _ _ _ _ c3, c4⟩
      · rw [if_neg hbri] at hok
        injection hok with hok
        subst hok
        exact hcore
    · rw [if_neg hfin] at hok
      injection hok with hok
      subst hok
      exact ⟨⟨hG1, hG2⟩, ⟨hM1, hM2⟩, hR, hlock⟩

/-- The step-3 loop preserves the invariant when it completes without a rule
raising. -/
theorem step3go_invariant (rules : List SyncRule) (ps : List (ℕ × ℕ))
    (g g' : GraphInfo)
    (hps : ∀ p ∈ ps, p.1 < g.nodes.length ∧ p.2 < g.nodes.length)
    (hwf : ∀ r ∈ rules, RuleWellFormed r) (hinv : InvariantHolds g)
    (hok : step3go rules ps g = (g', none)) : InvariantHolds g' := by
  induction ps generalizing g with
  | nil =>
    simp only [step3go, Prod.mk.injEq] at hok
    rw [← hok.1]
    exact hinv
  | cons p ps ih =>
    obtain ⟨p1, p2⟩ := p
    obtain ⟨hp1, hp2⟩ := hps (p1, p2) (by simp)
    unfold step3go at hok
    cases h1 : step3pair rules g p1 p2 with
    | error e => rw [h1] at hok; simp at hok
    | ok g1 =>
      rw [h1] at hok
      simp only at hok
      have hn1 : g1.nodes = g.nodes :=
        (step3pair_preserved rules g g1 p1 p2 h1 (p1 + 1) p2
          (by omega)).1
      cases h2 : step3pair rules g1 p2 p1 with
      | error e => rw [h2] at hok; simp at hok
      | ok g2 =>
        rw [h2] at hok
        simp only at hok
        have hn2 : g2.nodes = g1.nodes :=
          (step3pair_preserved rules g1 g2 p2 p1 h2 (p2 + 1) p1
            (by omega)).1
        have i1 : InvariantHolds g1 := step3pair_invariant rules g g1 p1 p2
          hp1 hp2 hwf hinv h1
        have i2 : InvariantHolds g2 := step3pair_invariant rules g1 g2 p2 p1
          (by rw [hn1]; exact hp2) (by rw [hn1]; exact hp1) hwf i1 h2
        refine ih g2 ?_ i2 hok
        intro q hq
        rw [hn2, hn1]
        exact hps q (by simp [hq])

theorem step2fold_nodes (ps : List (ℕ × ℕ)) (g : GraphInfo) :
    (ps.foldl (fun g p => step2pair g p.1 p.2) g).nodes = g.nodes := by
  induction ps generalizing g with
  | nil => rfl
  | cons p ps ih => rw [List.foldl_cons, ih, step2pair_nodes]

/-- Step 1 of `addepoch` (append nodes, block-expand the matrices) preserves
the invariant when the device matrices are square and in lock-step. -/
theorem addepoch_step1_invariant (g : GraphInfo)
    (new_nodes : List EpochNode) (nc : List (List Cost))
    (nm : List (List (Option TimeMapping)))
    (hnc : Square new_nodes.length nc) (hnm : Square new_nodes.length nm)
    (hlockn : ∀ i < new_nodes.length, ∀ j < new_nodes.length,
      (entry nm i j none = none ↔ entry nc i j Cost.inf = Cost.inf))
    (hinv : InvariantHolds g) :
    InvariantHolds
      { nodes := g.nodes ++ new_nodes,
        G := if g.nodes.length = 0 then nc
             else expandBlocks g.G nc Cost.inf g.nodes.length
               (g.nodes.length + new_nodes.length),
        mapping := if g.nodes.length = 0 then nm
             else expandBlocks g.mapping nm none g.nodes.length
               (g.nodes.length + new_nodes.length),
        syncRuleG := if g.nodes.length = 0 then zerosLike nc
             else expandBlocks g.syncRuleG (matFull new_nodes.length 0) 0
               g.nodes.length (g.nodes.length + new_nodes.length) } := by
  obtain ⟨hSG, hSM, hSR, hlock⟩ := hinv
  have hlen : (g.nodes ++ new_nodes).length =
      g.nodes.length + new_nodes.length := List.length_append _ _
  by_cases hz : g.nodes.length = 0
  · rw [if_pos hz, if_pos hz, if_pos hz]
    refine ⟨by rw [hlen, hz, Nat.zero_add]; exact hnc,
      by rw [hlen, hz, Nat.zero_add]; exact hnm,
      by rw [hlen, hz, Nat.zero_add]; exact square_zerosLike _ _ hnc, ?_⟩
    intro x hx y hy
    rw [hlen, hz, Nat.zero_add] at hx hy
    exact hlockn x hx y hy
  · rw [if_neg hz, if_neg hz, if_neg hz]
    refine ⟨by rw [hlen]; exact square_expandBlocks _ _ _ _ _,
      by rw [hlen]; exact square_expandBlocks _ _ _ _ _,
      by rw [hlen]; exact square_expandBlocks _ _ _ _ _, ?_⟩
    intro x hx y hy
    rw [hlen] at hx hy
    rw [entry_expandBlocks _ _ _ _ _ _ _ _ hx hy,
      entry_expandBlocks _ _ _ _ _ _ _ _ hx hy]
    by_cases cx : x < g.nodes.length <;> by_cases cy : y < g.nodes.length
    · rw [if_pos cx, if_pos cx, if_pos cy, if_pos cy]
      exact hlock x cx y cy
    · rw [if_pos cx, if_pos cx, if_neg cy, if_neg cy]
      simp
    · rw [if_neg cx, if_neg cx, if_pos cy, if_pos cy]
      simp
    · rw [if_neg cx, if_neg cx, if_neg cy, if_neg cy]
      exact hlockn (x - g.nodes.length) (by omega) (y - g.nodes.length)
        (by omega)

/-- A successful `addepoch` call preserves the invariant. -/
theorem addepoch_invariant (rules : List SyncRule) (daq : DaqSystem)
    (g g' : GraphInfo) (hwf : ∀ r ∈ rules, RuleWellFormed r)
    (hdaq : DaqWellFormed daq) (hinv : InvariantHolds g)
    (hok : addepoch rules daq g = (g', none)) : InvariantHolds g' := by
  by_cases hnew : daq.epochnodes.length = 0
  · simp only [addepoch, if_pos hnew, Prod.mk.injEq] at hok
    rw [← hok.1]
    exact hinv
  · have main : ∀ (g1 : GraphInfo),
        g1.nodes.length = g.nodes.length + daq.epochnodes.length →
        InvariantHolds g1 →
        (if rules.length > 0 then
          step3go rules
            (crossPairs g.nodes.length
              (g.nodes.length + daq.epochnodes.length))
            (step2 g1 g.nodes.length
              (g.nodes.length + daq.epochnodes.length))
        else
          (step2 g1 g.nodes.length
            (g.nodes.length + daq.epochnodes.length), none)) = (g', none) →
        InvariantHolds g' := by
      intro g1 hn1 hg1 hok2
      have hg2 := step2fold_invariant
        (crossPairs g.nodes.length (g.nodes.length + daq.epochnodes.length))
        g1 (by
          intro p hp
          obtain ⟨h1, h2, h3⟩ := crossPairs_mem _ _ p hp
          omega) hg1
      by_cases hr : rules.length > 0
      · rw [if_pos hr] at hok2
        refine step3go_invariant rules _ _ g' ?_ hwf hg2 hok2
        intro p hp
        obtain ⟨h1, h2, h3⟩ := crossPairs_mem _ _ p hp
        rw [step2fold_nodes]
        omega
      · rw [if_neg hr, Prod.mk.injEq] at hok2
        rw [← hok2.1]
        exact hg2
    cases hdg : daq.epochgraph with
    | none =>
      simp only [addepoch, hdg, if_neg hnew] at hok
      exact main _ (by simp)
        (addepoch_step1_invariant g daq.epochnodes _ _ (square_matFull _ _)
          (square_matFull _ _) (by
            intro x hx y hy
            rw [entry_matFull _ _ _ _ _ hx hy,
              entry_matFull _ _ _ _ _ hx hy]
            simp) hinv) hok
    | some cm =>
      obtain ⟨nc, nm⟩ := cm
      unfold DaqWellFormed at hdaq
      rw [hdg] at hdaq
      obtain ⟨hnc, hnm, hlockn⟩ := hdaq
      simp only [addepoch, hdg, if_neg hnew] at hok
      exact main _ (by simp)
        (addepoch_step1_invariant g daq.epochnodes nc nm hnc hnm hlockn hinv)
        hok

/-- C3: for every graph state reachable by `addepoch` from the empty graph
with well-formed device inputs and rules obeying the SyncRule contract, and
for all in-range indices `i, j`: `mapping[i][j]` is absent exactly when
`cost[i][j]` is `+inf`, and the cost, mapping and rule-provenance matrices
are square of size equal to the node-list length. -/
theorem reachable_invariant (rules : List SyncRule) (g : GraphInfo)
    (hwf : ∀ r ∈ rules, RuleWellFormed r) (hreach : Reachable rules g) :
    InvariantHolds g := by
  induction hreach with
  | empty =>
    refine ⟨⟨rfl, by simp [emptyGinfo]⟩, ⟨rfl, by simp [emptyGinfo]⟩,
      ⟨rfl, by simp [emptyGinfo]⟩, ?_⟩
    intro i hi
    simp [emptyGinfo] at hi
  | step g0 g0' daq hr hdaq hok ih =>
    exact addepoch_invariant rules daq g0 g0' hwf hdaq ih hok

/-- Devices with lock-step internal matrices (identity self-mapping) for the
invariant witness. -/
def daqAW : DaqSystem :=
  ⟨[aSG], some ([[Cost.fin 0]], [[some identityMapping]])⟩

def daqBW : DaqSystem :=
  ⟨[bSG], some ([[Cost.fin 0]], [[some identityMapping]])⟩

def c3g1 : GraphInfo := (addepoch [rule5] daqAW emptyGinfo).1

def c3g2 : GraphInfo := (addepoch [rule5] daqBW c3g1).1

theorem rule5_wf : RuleWellFormed rule5 := by
  intro a b c m h
  injection h with h1 h2
  exact ⟨⟨1, 0⟩, h2.symm⟩

theorem reachable_invariant_witness : InvariantHolds c3g2 :=
  reachable_invariant [rule5] c3g2
    (by
      intro r hr
      simp only [List.mem_singleton] at hr
      subst hr
      exact rule5_wf)
    (Reachable.step c3g1 c3g2 daqBW
      (Reachable.step emptyGinfo c3g1 daqAW Reachable.empty (by decide)
        (by decide))
      (by decide) (by decide))
